import Mathlib

/-! Shamir secret reconstruction (`node.js`): embedding and properties.

The functions of `node.js` are embedded as Lean functions.

* JavaScript `BigInt` values are `Int`; `%` and `/` on them truncate toward zero
  (`Int.tmod`, `Int.tdiv`).
* JavaScript `Number` values only arise from `parseInt`, so they are NaN, an infinity or an
  integer-valued double; `JSNumber` records exactly these.
* A `throw` is `Except.error`; `JSError` lists the errors the code can raise.
* `for` loops are structural recursions that carry the loop variable and the accumulator.
* Strings are Lean strings. A character outside the Basic Multilingual Plane is one `Char` here
  and two code units in JavaScript; neither reading makes it a digit, so `parseInt` and
  `fromBase` treat it alike.
* The built-ins the code calls (`parseInt`, `BigInt`, `Object.entries`, `slice`, `toString`)
  follow ECMAScript.
* In `lagrangeBasis` the source destructures twice into the unused name `_`
  (`const [xi, _]`, `const [xj, _]`) inside one block, a redeclaration that a JavaScript engine
  rejects when it parses the file; the embedding reads both as discarded components, which is
  what the function does once one of the two names is changed.
-/

namespace Shamir

/-! ## Values and errors -/

/-- A JavaScript Number as `parseInt` can return it: NaN, an infinity, or an integer-valued
double given by sign and magnitude (`int true 0` is `-0`). -/
inductive JSNumber where
  | nan
  | inf (neg : Bool)
  | int (neg : Bool) (mag : Nat)
  deriving DecidableEq, Repr

/-- The errors raised by the code: the three `throw new Error(...)` of the source, and the
`TypeError` / `RangeError` that the language raises (mixing a Number with a BigInt,
destructuring `undefined`; `BigInt(NaN)`, BigInt division by zero). -/
inductive JSError where
  | invalidDigit (base : Nat)
  | noInverse
  | notEnoughPoints
  | typeError
  | rangeError
  deriving DecidableEq, Repr

/-- What `fromBase` returns: a Number on its `parseInt` path, a BigInt on its loop path. -/
inductive JSValue where
  | number (n : JSNumber)
  | bigint (i : Int)
  deriving DecidableEq, Repr

/-- A decoded point `[x, y]`: `x` is `parseInt(key)`, `y` is what `fromBase` returned. -/
structure Point where
  x : JSNumber
  y : JSValue
  deriving DecidableEq, Repr

/-! ## `parseInt` (ECMAScript built-in) -/

/-- How many low-order bits of `n` do not fit a 53-bit significand (`fuel` bounds the count). -/
def excessBits : Nat → Nat → Nat
  | 0, _ => 0
  | fuel + 1, n => if n < 2 ^ 53 then 0 else excessBits fuel (n / 2) + 1

/-- Nearest double to a natural number (round to nearest, ties to even, 53-bit significand);
`none` is overflow to `Infinity`. -/
def roundToDouble (n : Nat) : Option Nat :=
  if n < 2 ^ 53 then some n
  else
    let e := excessBits n n
    let q := n / 2 ^ e
    let r := n % 2 ^ e
    let half := 2 ^ (e - 1)
    let q1 := if half < r ∨ (r = half ∧ q % 2 = 1) then q + 1 else q
    if 2 ^ 1024 ≤ q1 * 2 ^ e then none else some (q1 * 2 ^ e)

/-- White space and line terminators that `parseInt` skips at the start of its input. -/
def isWhiteSpace (c : Char) : Bool :=
  c.toNat ∈ [0x09, 0x0A, 0x0B, 0x0C, 0x0D, 0x20, 0xA0, 0x1680, 0x2028, 0x2029, 0x202F,
    0x205F, 0x3000, 0xFEFF] || (0x2000 ≤ c.toNat && c.toNat ≤ 0x200A)

/-- Value of a character as a `parseInt` digit: `0`-`9`, then `a`-`z` or `A`-`Z` for 10-35. -/
def radixDigit (c : Char) : Option Nat :=
  if 48 ≤ c.toNat ∧ c.toNat ≤ 57 then some (c.toNat - 48)
  else if 97 ≤ c.toNat ∧ c.toNat ≤ 122 then some (c.toNat - 87)
  else if 65 ≤ c.toNat ∧ c.toNat ≤ 90 then some (c.toNat - 55)
  else none

/-- Whether `c` is a digit of radix `R`. -/
def isRadixDigit (R : Nat) (c : Char) : Bool :=
  match radixDigit c with
  | some d => decide (d < R)
  | none => false

/-- Positional value of a run of radix-`R` digits. -/
def mathInt (R : Nat) (Z : List Char) : Nat :=
  Z.foldl (fun acc c => acc * R + (radixDigit c).getD 0) 0

/-- The built-in `parseInt(string, radix)`, following the ECMAScript algorithm; `radix = 0`
stands for an absent radix. The source calls it with no radix (on keys) or with a base that is at
most 10. The integer read is taken exactly and rounded to the nearest double. -/
def parseInt (string : String) (radix : Nat) : JSNumber :=
  let S := string.toList.dropWhile isWhiteSpace
  let neg := decide (S.head? = some '-')
  let S := if S.head? = some '-' ∨ S.head? = some '+' then S.tail else S
  if radix ≠ 0 ∧ (radix < 2 ∨ 36 < radix) then JSNumber.nan
  else
    let stripPrefix := decide (radix = 0 ∨ radix = 16)
    let R := if radix = 0 then 10 else radix
    let hex := stripPrefix && (S.take 2 == ['0', 'x'] || S.take 2 == ['0', 'X'])
    let S := if hex then S.drop 2 else S
    let R := if hex then 16 else R
    let Z := S.takeWhile (isRadixDigit R)
    if Z.isEmpty then JSNumber.nan
    else
      match roundToDouble (mathInt R Z) with
      | some v => JSNumber.int neg v
      | none => JSNumber.inf neg

/-- The conversion `BigInt(n)` of a Number: a `RangeError` unless `n` is an integer. -/
def toBigInt : JSNumber → Except JSError Int
  | JSNumber.int neg mag => Except.ok (if neg then -(mag : Int) else (mag : Int))
  | _ => Except.error JSError.rangeError

/-! ## `fromBase` -/

/-- The digit alphabet of `fromBase`. -/
def digits : List Char := "0123456789abcdefghijklmnopqrstuvwxyz".toList

/-- The code unit `c` lowercased, as far as `digits.indexOf` can tell: `A`-`Z` go to `a`-`z` and
the Kelvin sign U+212A goes to `k`; every other character lowercases to itself or to text that
does not occur in `digits`. -/
def toLowerCase (c : Char) : Char :=
  if c.toNat = 0x212A then 'k' else c.toLower

/-- `digits.indexOf(c.toLowerCase())`, with `none` for `-1`. -/
def digitIndex (c : Char) : Option Nat :=
  let i := digits.indexOf (toLowerCase c)
  if i < digits.length then some i else none

/-- The `for` loop of `fromBase`, over the characters still to read. -/
def fromBaseLoop (base : Nat) : List Char → Int → Except JSError Int
  | [], result => Except.ok result
  | c :: rest, result =>
    match digitIndex c with
    | none => Except.error (JSError.invalidDigit base)
    | some digit =>
      if base ≤ digit then Except.error (JSError.invalidDigit base)
      else fromBaseLoop base rest (result * (base : Int) + (digit : Int))

/-- `fromBase(str, base)`. -/
def fromBase (str : String) (base : Nat) : Except JSError JSValue :=
  if base ≤ 10 then Except.ok (JSValue.number (parseInt str base))
  else
    match fromBaseLoop base str.toList 0 with
    | Except.error e => Except.error e
    | Except.ok result => Except.ok (JSValue.bigint result)

/-! ## Modular inverse -/

/-- Recursion of `extendedGCD`, with the depth bounded by `fuel`. -/
def extendedGCDAux : Nat → Int → Int → Int × Int × Int
  | 0, _, b => (b, 0, 1)
  | fuel + 1, a, b =>
    if a = 0 then (b, 0, 1)
    else
      let r := extendedGCDAux fuel (Int.tmod b a) a
      (r.1, r.2.2 - Int.tdiv b a * r.2.1, r.2.1)

/-- `extendedGCD(a, b)`. Each call replaces `a` by `b % a`, which is smaller in absolute value,
so `|a| + 1` levels of recursion are enough (`extendedGCD_unfold`). -/
def extendedGCD (a b : Int) : Int × Int × Int :=
  extendedGCDAux (a.natAbs + 1) a b

/-- `modInverse(a, m)`. -/
def modInverse (a m : Int) : Except JSError Int :=
  if m = 0 then Except.error JSError.rangeError
  else
    let a := Int.tmod (Int.tmod a m + m) m
    let r := extendedGCD a m
    if r.1 ≠ 1 then Except.error JSError.noInverse
    else Except.ok (Int.tmod (Int.tmod r.2.1 m + m) m)

/-- The modulus `PRIME`. -/
def PRIME : Int :=
  115792089237316195423570985008687907853269984665640564039457584007913129639747

/-! ## Lagrange basis -/

/-- The `for` loop of `lagrangeBasis`: `i` is the loop variable, the list holds `points[i]`,
`points[i+1]`, ... -/
def lagrangeBasisLoop (points : List Point) (j : Nat) (x : Int) :
    Nat → List Point → Int → Except JSError Int
  | _, [], result => Except.ok result
  | i, pi :: rest, result =>
    if i ≠ j then
      match points[j]? with
      | none => Except.error JSError.typeError
      | some pj =>
        match toBigInt pi.x with
        | Except.error e => Except.error e
        | Except.ok xi =>
          match toBigInt pj.x with
          | Except.error e => Except.error e
          | Except.ok xj =>
            match modInverse (xj - xi) PRIME with
            | Except.error e => Except.error e
            | Except.ok inv =>
              lagrangeBasisLoop points j x (i + 1) rest
                (Int.tmod (result * ((x - xi) * inv)) PRIME)
    else lagrangeBasisLoop points j x (i + 1) rest result

/-- `lagrangeBasis(points, j, x)`. -/
def lagrangeBasis (points : List Point) (j : Nat) (x : Int) : Except JSError Int :=
  lagrangeBasisLoop points j x 0 points 1

/-! ## `reconstructSecret` -/

/-- A share entry `{ base, value }`; `base` is the number that `parseInt(data.base)` yields
from the entry's base string. -/
structure Share where
  base : Nat
  value : String
  deriving DecidableEq, Repr

/-- The input object: the threshold `keys.k` and the remaining own properties, apart from
`keys` and `n`, in the order in which they were created. -/
structure InputData where
  k : Int
  shares : List (String × Share)
  deriving Repr

/-- The array index a property key denotes, if it is the canonical decimal string of an integer
below `2^32 - 1`. -/
def arrayIndex (key : String) : Option Nat :=
  let cs := key.toList
  if cs.isEmpty || !cs.all Char.isDigit || (cs.head? == some '0' && cs.length ≠ 1) then none
  else
    let n := cs.foldl (fun acc c => acc * 10 + (c.toNat - 48)) 0
    if n < 2 ^ 32 - 1 then some n else none

/-- Order of array-index keys: by the index they denote. -/
def keyLE (p q : String × Share) : Prop :=
  (arrayIndex p.1).getD 0 ≤ (arrayIndex q.1).getD 0

instance : DecidableRel keyLE :=
  fun p q => inferInstanceAs (Decidable ((arrayIndex p.1).getD 0 ≤ (arrayIndex q.1).getD 0))

instance : IsTotal (String × Share) keyLE :=
  ⟨fun p q => Nat.le_total ((arrayIndex p.1).getD 0) ((arrayIndex q.1).getD 0)⟩

instance : IsTrans (String × Share) keyLE :=
  ⟨fun _ _ _ h1 h2 => Nat.le_trans h1 h2⟩

/-- Own-property order of an object (`Object.entries`, and the rest pattern before it): keys
that are array indices first, in ascending numeric order, then the other keys in creation
order. -/
def objectEntries (props : List (String × Share)) : List (String × Share) :=
  (props.filter (fun p => (arrayIndex p.1).isSome)).insertionSort keyLE
    ++ props.filter (fun p => !(arrayIndex p.1).isSome)

/-- The `map` over the entries: each is decoded in turn, the first failure aborts. -/
def decodePoints : List (String × Share) → Except JSError (List Point)
  | [] => Except.ok []
  | (x, data) :: rest =>
    match fromBase data.value data.base with
    | Except.error e => Except.error e
    | Except.ok y =>
      match decodePoints rest with
      | Except.error e => Except.error e
      | Except.ok pts => Except.ok (⟨parseInt x 0, y⟩ :: pts)

/-- `decodedPoints.slice(0, k)`: a negative `k` counts from the end. -/
def slice (decodedPoints : List Point) (k : Int) : List Point :=
  if k < 0 then decodedPoints.take (decodedPoints.length - k.natAbs)
  else decodedPoints.take k.toNat

/-- The accumulation loop `for (let j = 0; j < k; j++)`: the first argument counts the
iterations still to run. -/
def secretLoop (selectedPoints : List Point) : Nat → Nat → Int → Except JSError Int
  | 0, _, secret => Except.ok secret
  | n + 1, j, secret =>
    match selectedPoints[j]? with
    | none => Except.error JSError.typeError
    | some pj =>
      match lagrangeBasis selectedPoints j 0 with
      | Except.error e => Except.error e
      | Except.ok basis =>
        match pj.y with
        | JSValue.number _ => Except.error JSError.typeError
        | JSValue.bigint yj =>
          secretLoop selectedPoints n (j + 1) (Int.tmod (secret + yj * basis) PRIME)

/-- Lines 80-89: the accumulation loop over `selectedPoints` followed by the final
normalisation `((secret % PRIME) + PRIME) % PRIME`. -/
def interpolate (selectedPoints : List Point) (k : Int) : Except JSError Int :=
  match secretLoop selectedPoints k.toNat 0 0 with
  | Except.error e => Except.error e
  | Except.ok secret => Except.ok (Int.tmod (Int.tmod secret PRIME + PRIME) PRIME)

/-- `BigInt.prototype.toString()`: decimal digits, with a leading `-` for a negative value. -/
def bigIntToString (i : Int) : String :=
  if i < 0 then "-" ++ Nat.repr i.natAbs else Nat.repr i.natAbs

/-- `reconstructSecret(inputData)`. -/
def reconstructSecret (inputData : InputData) : Except JSError String :=
  match decodePoints (objectEntries inputData.shares) with
  | Except.error e => Except.error e
  | Except.ok decodedPoints =>
    if (decodedPoints.length : Int) < inputData.k then Except.error JSError.notEnoughPoints
    else
      match interpolate (slice decodedPoints inputData.k) inputData.k with
      | Except.error e => Except.error e
      | Except.ok secret => Except.ok (bigIntToString secret)

/-- The fixture `testCase1`. -/
def testCase1 : InputData :=
  { k := 3
    shares := [("1", ⟨10, "4"⟩), ("2", ⟨2, "111"⟩), ("3", ⟨10, "12"⟩), ("6", ⟨4, "213"⟩)] }

/-- The fixture `testCase2`. -/
def testCase2 : InputData :=
  { k := 7
    shares :=
      [("1", ⟨6, "13444211440455345511"⟩),
       ("2", ⟨15, "aed7015a346d63"⟩),
       ("3", ⟨15, "6aeeb69631c227c"⟩),
       ("4", ⟨16, "e1b5e05623d881f"⟩),
       ("5", ⟨8, "316034514573652620673"⟩),
       ("6", ⟨3, "2122212201122002221120200210011020220200"⟩),
       ("7", ⟨3, "20120221122211000100210021102001201112121"⟩),
       ("8", ⟨6, "20220554335330240002224253"⟩),
       ("9", ⟨12, "45153788322a1255483"⟩),
       ("10", ⟨7, "1101613130313526312514143"⟩)] }

/-! ## Checking primality certificates -/

/-- Square-and-multiply modular exponentiation; `fuel` bounds the bit length of `e`. -/
def powModAux : Nat → Nat → Nat → Nat → Nat
  | 0, _, _, m => 1 % m
  | fuel + 1, a, e, m =>
    if e = 0 then 1 % m
    else
      let h := powModAux fuel a (e / 2) m
      if e % 2 = 1 then h * h % m * a % m else h * h % m

/-! ## Auxiliary definitions for the interpolation loops -/

/-- One factor of the basis product, `(x - BigInt(xi)) * modInverse(BigInt(xj) - BigInt(xi),
PRIME)`, with its conversions and errors in the order of evaluation. -/
def basisFactor (x : Int) (xjN : JSNumber) (pi : Point) : Except JSError Int :=
  match toBigInt pi.x with
  | Except.error e => Except.error e
  | Except.ok xi =>
    match toBigInt xjN with
    | Except.error e => Except.error e
    | Except.ok xj =>
      match modInverse (xj - xi) PRIME with
      | Except.error e => Except.error e
      | Except.ok inv => Except.ok ((x - xi) * inv)

/-- The loop of `lagrangeBasis` run over the points other than `points[j]`. -/
def prodLoop (x : Int) (xjN : JSNumber) : List Point → Int → Except JSError Int
  | [], result => Except.ok result
  | pi :: rest, result =>
    match basisFactor x xjN pi with
    | Except.error e => Except.error e
    | Except.ok f => prodLoop x xjN rest (Int.tmod (result * f) PRIME)

/-- The factor as an integer, `1` where it raises. -/
def factorVal (x : Int) (xjN : JSNumber) (pi : Point) : Int :=
  match basisFactor x xjN pi with
  | Except.ok f => f
  | Except.error _ => 1

/-- The y-coordinate as an integer, `0` where it is a Number. -/
def yVal (p : Point) : Int :=
  match p.y with
  | JSValue.bigint y => y
  | JSValue.number _ => 0

/-- The point `p` of `pts` contributes a summand without raising: its `y` is a BigInt and every
factor of its basis product exists. -/
def Good (pts : List Point) (p : Point) : Prop :=
  (∃ y, p.y = JSValue.bigint y) ∧ ∀ q ∈ pts.erase p, ∃ f, basisFactor 0 p.x q = Except.ok f

/-- The summand of `p`: `y` times the product of the basis factors at `x = 0`. -/
def termVal (pts : List Point) (p : Point) : Int :=
  yVal p * ((pts.erase p).map (factorVal 0 p.x)).prod

/-- The Lagrange sum at `x = 0`, before reduction. -/
def lagrangeSum (pts : List Point) : Int :=
  (pts.map (termVal pts)).sum

/-! ## Decimal numerals -/

/-- Value of a list of decimal digit characters, most significant first. -/
def decimalValue (cs : List Char) : Nat :=
  cs.foldl (fun acc c => acc * 10 + (c.toNat - 48)) 0

/-- The string `s` is the canonical unsigned decimal numeral of `v`: it is not empty, holds only
the characters `0`-`9`, has no leading zero unless it is the single digit `0`, and denotes
`v`. -/
def IsCanonicalDecimal (s : String) (v : Nat) : Prop :=
  s.toList ≠ [] ∧ (∀ c ∈ s.toList, 48 ≤ c.toNat ∧ c.toNat ≤ 57) ∧
    (s.toList.head? = some '0' → s.toList = ['0']) ∧ decimalValue s.toList = v

/-! ## The normalisation `reduce` -/

/-- The expression `((a % m) + m) % m` that the source writes out at the entry and at the exit of
`modInverse` and on the final value of `reconstructSecret`; `%` is the truncating remainder of
BigInt. -/
def reduce (a m : Int) : Int :=
  Int.tmod (Int.tmod a m + m) m

/-! ## Valid digits and distinct x-coordinates -/

/-- The character `c` is a valid digit for `base` on the loop path of `fromBase`: it occurs in
the digit alphabet, after lowercasing, at an index below `base`. -/
def IsValidDigit (base : Nat) (c : Char) : Prop :=
  ∃ d, digitIndex c = some d ∧ d < base

/-- The x-coordinates of `pts` are integers, pairwise distinct modulo `PRIME`. -/
def DistinctX (pts : List Point) : Prop :=
  (∀ p ∈ pts, ∃ xi, toBigInt p.x = Except.ok xi) ∧
    pts.Pairwise (fun p q => ∀ xp xq, toBigInt p.x = Except.ok xp →
      toBigInt q.x = Except.ok xq → ¬ xp ≡ xq [ZMOD PRIME])

/-! ## Letter case -/

/-- `str.toUpperCase()` on a string of the characters `0`-`9`, `a`-`z`, `A`-`Z`. -/
def toUpperCaseAscii (str : String) : String :=
  String.mk (str.toList.map Char.toUpper)

/-- `str.toLowerCase()` on a string of the characters `0`-`9`, `a`-`z`, `A`-`Z`. -/
def toLowerCaseAscii (str : String) : String :=
  String.mk (str.toList.map Char.toLower)

/-- Every character of `str` is one of `0`-`9`, `a`-`z`, `A`-`Z`. -/
def IsAlphanumeric (str : String) : Prop :=
  ∀ c ∈ str.toList, c.isAlphanum = true

/-! # Properties -/

/-! ## Arithmetic of the truncating remainder -/

theorem natAbs_tmod (b a : Int) : (Int.tmod b a).natAbs = b.natAbs % a.natAbs := by
  cases a <;> cases b <;> simp [Int.tmod, Int.natAbs_neg] <;> rfl

theorem natAbs_tmod_lt (b a : Int) (h : a ≠ 0) : (Int.tmod b a).natAbs < a.natAbs := by
  rw [natAbs_tmod]
  exact Nat.mod_lt _ (Int.natAbs_pos.2 h)

/-- The double reduction `((a % m) + m) % m` under the truncating remainder is the Euclidean
remainder, for a positive modulus. -/
theorem tmod_add_tmod (a m : Int) (hm : 0 < m) :
    Int.tmod (Int.tmod a m + m) m = a % m := by
  have ht : Int.tmod a m = a - m * Int.tdiv a m := Int.tmod_def a m
  have hlt := natAbs_tmod_lt a m hm.ne'
  have hnn : 0 ≤ Int.tmod a m + m := by omega
  rw [Int.tmod_eq_emod hnn hm.le, ht]
  have : a - m * Int.tdiv a m + m = a + m * (1 - Int.tdiv a m) := by ring
  rw [this, Int.add_mul_emod_self_left]

/-! ## `extendedGCD` -/

theorem extendedGCDAux_fuel (f1 : Nat) : ∀ (f2 : Nat) (a b : Int),
    a.natAbs < f1 → a.natAbs < f2 → extendedGCDAux f1 a b = extendedGCDAux f2 a b := by
  induction f1 with
  | zero => intro f2 a b h; omega
  | succ n ih =>
    intro f2 a b h1 h2
    cases f2 with
    | zero => omega
    | succ m =>
      unfold extendedGCDAux
      by_cases ha : a = 0
      · simp [ha]
      · simp only [ha, if_false]
        have hlt := natAbs_tmod_lt b a ha
        rw [ih m (Int.tmod b a) a (by omega) (by omega)]

/-- The recursion equation of the source's `extendedGCD`. -/
theorem extendedGCD_unfold (a b : Int) :
    extendedGCD a b =
      if a = 0 then (b, 0, 1)
      else
        let r := extendedGCD (Int.tmod b a) a
        (r.1, r.2.2 - Int.tdiv b a * r.2.1, r.2.1) := by
  unfold extendedGCD
  by_cases ha : a = 0
  · simp [ha, extendedGCDAux]
  · have hlt := natAbs_tmod_lt b a ha
    simp only [ha, if_false]
    rw [extendedGCDAux]
    simp only [ha, if_false]
    rw [extendedGCDAux_fuel a.natAbs ((Int.tmod b a).natAbs + 1) (Int.tmod b a) a hlt
      (Nat.lt_succ_self _)]

/-- For non-negative arguments `extendedGCD` returns the gcd and Bezout coefficients for it. -/
theorem extendedGCD_spec (n : Nat) : ∀ (a b : Int), a.natAbs ≤ n → 0 ≤ a → 0 ≤ b →
    (extendedGCD a b).1 = (Int.gcd a b : Int) ∧
      a * (extendedGCD a b).2.1 + b * (extendedGCD a b).2.2 = (extendedGCD a b).1 := by
  induction n using Nat.strong_induction_on with
  | _ n ih =>
    intro a b hn ha hb
    rw [extendedGCD_unfold]
    by_cases h0 : a = 0
    · subst h0
      simp [Int.gcd, abs_of_nonneg hb]
    · simp only [h0, if_false]
      have hlt := natAbs_tmod_lt b a h0
      have hpos : 0 < a := lt_of_le_of_ne ha (Ne.symm h0)
      have hr0 : 0 ≤ Int.tmod b a := Int.tmod_nonneg a hb
      obtain ⟨h1, h2⟩ := ih (Int.tmod b a).natAbs (by omega) (Int.tmod b a) a le_rfl hr0 ha
      constructor
      · rw [h1]
        show ((Nat.gcd (Int.tmod b a).natAbs a.natAbs : Nat) : Int)
          = ((Nat.gcd a.natAbs b.natAbs : Nat) : Int)
        rw [natAbs_tmod, ← Nat.gcd_rec]
      · rw [← h2]
        have ht : Int.tmod b a = b - a * Int.tdiv b a := Int.tmod_def b a
        rw [ht]
        ring

/-! ## Primality of the modulus -/

theorem powModAux_eq (fuel : Nat) : ∀ (a e m : Nat), e < 2 ^ fuel →
    powModAux fuel a e m = a ^ e % m := by
  induction fuel with
  | zero =>
    intro a e m h
    have : e = 0 := by simpa using h
    subst this
    simp [powModAux]
  | succ n ih =>
    intro a e m h
    unfold powModAux
    by_cases he : e = 0
    · simp [he]
    · have hlt : e / 2 < 2 ^ n := by
        rw [Nat.div_lt_iff_lt_mul (by norm_num)]
        rw [pow_succ] at h
        exact h
      simp only [he, if_false, ih a (e / 2) m hlt]
      have hsq : a ^ (e / 2) % m * (a ^ (e / 2) % m) % m = a ^ (2 * (e / 2)) % m := by
        rw [two_mul, pow_add]
        exact (Nat.mul_mod _ _ _).symm
      by_cases hodd : e % 2 = 1
      · simp only [hodd, if_true]
        rw [hsq]
        conv_rhs => rw [← Nat.div_add_mod e 2, hodd, pow_succ]
        rw [Nat.mul_mod, Nat.mod_mod, ← Nat.mul_mod]
      · simp only [hodd, if_false]
        rw [hsq]
        have : e % 2 = 0 := by omega
        conv_rhs => rw [← Nat.div_add_mod e 2, this, add_zero]

/-- Lucas certificate check with the prime factors of `p - 1` given as a list. -/
theorem prime_of_lucas_cert (p a fuel : Nat) (fs : List Nat)
    (hfuel : p < 2 ^ fuel) (hp1 : 1 < p)
    (hfs : ∀ q ∈ fs, Nat.Prime q) (hprod : fs.prod = p - 1)
    (h1 : powModAux fuel a (p - 1) p = 1)
    (h2 : ∀ q ∈ fs, powModAux fuel a ((p - 1) / q) p ≠ 1) : Nat.Prime p := by
  have hlt : p - 1 < 2 ^ fuel := by omega
  apply lucas_primality p (a : ZMod p)
  · rw [powModAux_eq _ _ _ _ hlt] at h1
    have : ((a ^ (p - 1) : ℕ) : ZMod p) = ((1 : ℕ) : ZMod p) := by
      rw [ZMod.natCast_eq_natCast_iff', h1, Nat.mod_eq_of_lt hp1]
    simpa using this
  · intro q hq hdvd
    rw [← hprod] at hdvd
    obtain ⟨r, hr, hqr⟩ := (Prime.dvd_prod_iff hq.prime).1 hdvd
    have hqr' : q = r := (Nat.prime_dvd_prime_iff_eq hq (hfs r hr)).1 hqr
    subst hqr'
    have h := h2 q hr
    have hlt' : (p - 1) / q < 2 ^ fuel := lt_of_le_of_lt (Nat.div_le_self _ _) hlt
    rw [powModAux_eq _ _ _ _ hlt'] at h
    intro hc
    apply h
    have : ((a ^ ((p - 1) / q) : ℕ) : ZMod p) = ((1 : ℕ) : ZMod p) := by
      simpa using hc
    rw [ZMod.natCast_eq_natCast_iff', Nat.mod_eq_of_lt hp1] at this
    exact this

set_option maxRecDepth 1000000

set_option exponentiation.threshold 2048

theorem prime_10262543633 : Nat.Prime 10262543633 :=
  prime_of_lucas_cert 10262543633 3 34 [2, 2, 2, 2, 11, 83, 702529]
    (by norm_num) (by norm_num)
    (by
      intro q hq
      simp only [List.mem_cons, List.mem_singleton, List.not_mem_nil, or_false] at hq
      rcases hq with rfl | rfl | rfl | rfl | rfl | rfl | rfl
      · exact Nat.prime_two
      · exact Nat.prime_two
      · exact Nat.prime_two
      · exact Nat.prime_two
      · norm_num
      · norm_num
      · norm_num)
    (by decide) (by decide) (by decide)

theorem prime_246301047193 : Nat.Prime 246301047193 :=
  prime_of_lucas_cert 246301047193 5 38 [2, 2, 2, 3, 10262543633]
    (by norm_num) (by norm_num)
    (by
      intro q hq
      simp only [List.mem_cons, List.mem_singleton, List.not_mem_nil, or_false] at hq
      rcases hq with rfl | rfl | rfl | rfl | rfl
      · exact Nat.prime_two
      · exact Nat.prime_two
      · exact Nat.prime_two
      · exact Nat.prime_three
      · exact prime_10262543633)
    (by decide) (by decide) (by decide)

theorem prime_1219974856409 : Nat.Prime 1219974856409 :=
  prime_of_lucas_cert 1219974856409 6 41 [2, 2, 2, 7, 11, 3761, 526583]
    (by norm_num) (by norm_num)
    (by
      intro q hq
      simp only [List.mem_cons, List.mem_singleton, List.not_mem_nil, or_false] at hq
      rcases hq with rfl | rfl | rfl | rfl | rfl | rfl | rfl
      · exact Nat.prime_two
      · exact Nat.prime_two
      · exact Nat.prime_two
      · norm_num
      · norm_num
      · norm_num
      · norm_num)
    (by decide) (by decide) (by decide)

theorem prime_68964293214041 : Nat.Prime 68964293214041 :=
  prime_of_lucas_cert 68964293214041 12 46 [2, 2, 2, 5, 7, 246301047193]
    (by norm_num) (by norm_num)
    (by
      intro q hq
      simp only [List.mem_cons, List.mem_singleton, List.not_mem_nil, or_false] at hq
      rcases hq with rfl | rfl | rfl | rfl | rfl | rfl
      · exact Nat.prime_two
      · exact Nat.prime_two
      · exact Nat.prime_two
      · exact Nat.prime_five
      · norm_num
      · exact prime_246301047193)
    (by decide) (by decide) (by decide)

theorem prime_23236691026952546459 : Nat.Prime 23236691026952546459 :=
  prime_of_lucas_cert 23236691026952546459 2 65 [2, 7, 41, 587, 68964293214041]
    (by norm_num) (by norm_num)
    (by
      intro q hq
      simp only [List.mem_cons, List.mem_singleton, List.not_mem_nil, or_false] at hq
      rcases hq with rfl | rfl | rfl | rfl | rfl
      · exact Nat.prime_two
      · norm_num
      · norm_num
      · norm_num
      · exact prime_68964293214041)
    (by decide) (by decide) (by decide)

theorem prime_14220365526706201077871 : Nat.Prime 14220365526706201077871 :=
  prime_of_lucas_cert 14220365526706201077871 6 74 [2, 3, 3, 5, 23, 2221, 36151, 87881, 973591]
    (by norm_num) (by norm_num)
    (by
      intro q hq
      simp only [List.mem_cons, List.mem_singleton, List.not_mem_nil, or_false] at hq
      rcases hq with rfl | rfl | rfl | rfl | rfl | rfl | rfl | rfl | rfl
      · exact Nat.prime_two
      · exact Nat.prime_three
      · exact Nat.prime_three
      · exact Nat.prime_five
      · norm_num
      · norm_num
      · norm_num
      · norm_num
      · norm_num)
    (by decide) (by decide) (by decide)

theorem prime_440208639276132997491800604758226661590679912188273141493 :
    Nat.Prime 440208639276132997491800604758226661590679912188273141493 :=
  prime_of_lucas_cert 440208639276132997491800604758226661590679912188273141493
    2 189
    [2, 2, 3, 7, 13, 1219974856409, 23236691026952546459, 14220365526706201077871]
    (by norm_num) (by norm_num)
    (by
      intro q hq
      simp only [List.mem_cons, List.mem_singleton, List.not_mem_nil, or_false] at hq
      rcases hq with rfl | rfl | rfl | rfl | rfl | rfl | rfl | rfl
      · exact Nat.prime_two
      · exact Nat.prime_two
      · exact Nat.prime_three
      · norm_num
      · norm_num
      · exact prime_1219974856409
      · exact prime_23236691026952546459
      · exact prime_14220365526706201077871)
    (by decide) (by decide) (by decide)

theorem prime_PRIME_nat :
    Nat.Prime 115792089237316195423570985008687907853269984665640564039457584007913129639747 :=
  prime_of_lucas_cert 115792089237316195423570985008687907853269984665640564039457584007913129639747
    2 256
    [2, 3, 29, 222587, 1521613, 4463413,
      440208639276132997491800604758226661590679912188273141493]
    (by norm_num) (by norm_num)
    (by
      intro q hq
      simp only [List.mem_cons, List.mem_singleton, List.not_mem_nil, or_false] at hq
      rcases hq with rfl | rfl | rfl | rfl | rfl | rfl | rfl
      · exact Nat.prime_two
      · exact Nat.prime_three
      · norm_num
      · norm_num
      · norm_num
      · norm_num
      · exact prime_440208639276132997491800604758226661590679912188273141493)
    (by decide) (by decide) (by decide)


theorem PRIME_pos : 0 < PRIME := by unfold PRIME; norm_num

theorem PRIME_prime : Prime PRIME := by
  have h := Nat.prime_iff_prime_int.1 prime_PRIME_nat
  unfold PRIME
  exact_mod_cast h

/-! ## `modInverse` -/

theorem modInverse_of_pos (a m : Int) (hm : 0 < m) :
    modInverse a m =
      if (extendedGCD (a % m) m).1 ≠ 1 then Except.error JSError.noInverse
      else Except.ok ((extendedGCD (a % m) m).2.1 % m) := by
  unfold modInverse
  simp only [hm.ne', if_false, tmod_add_tmod _ _ hm]

theorem extendedGCD_emod_fst (a m : Int) (hm : 0 < m) :
    (extendedGCD (a % m) m).1 = 1 ↔ IsCoprime a m := by
  have h := (extendedGCD_spec (a % m).natAbs (a % m) m le_rfl
    (Int.emod_nonneg a hm.ne') hm.le).1
  rw [h]
  have hc : IsCoprime (a % m) m ↔ IsCoprime a m := by
    have : a % m = a + m * (-(a / m)) := by
      have := Int.emod_add_ediv a m
      linarith
    rw [this]
    exact IsCoprime.add_mul_left_left_iff
  rw [← hc, ← Int.gcd_eq_one_iff_coprime]
  exact_mod_cast Iff.rfl

theorem modInverse_coprime (a m : Int) (hm : 0 < m) (h : IsCoprime a m) :
    ∃ r, modInverse a m = Except.ok r ∧ 0 ≤ r ∧ r < m ∧ (a * r) % m = 1 % m := by
  have h1 := (extendedGCD_emod_fst a m hm).2 h
  refine ⟨(extendedGCD (a % m) m).2.1 % m, ?_, Int.emod_nonneg _ hm.ne',
    Int.emod_lt_of_pos _ hm, ?_⟩
  · rw [modInverse_of_pos a m hm]
    simp [h1]
  · have h2 := (extendedGCD_spec (a % m).natAbs (a % m) m le_rfl
      (Int.emod_nonneg a hm.ne') hm.le).2
    rw [h1] at h2
    have e1 : a * ((extendedGCD (a % m) m).2.1 % m) ≡ a % m * (extendedGCD (a % m) m).2.1
        [ZMOD m] := Int.ModEq.mul (Int.mod_modEq a m).symm (Int.mod_modEq _ m)
    have e2 : a % m * (extendedGCD (a % m) m).2.1 = 1 + m * (-(extendedGCD (a % m) m).2.2) := by
      linarith
    have e3 : a % m * (extendedGCD (a % m) m).2.1 ≡ 1 [ZMOD m] := by
      rw [e2]
      exact Int.add_mul_emod_self_left _ _ _
    exact e1.trans e3

theorem modInverse_not_coprime (a m : Int) (hm : 0 < m) (h : ¬ IsCoprime a m) :
    modInverse a m = Except.error JSError.noInverse := by
  have h1 : ¬ (extendedGCD (a % m) m).1 = 1 := fun hc => h ((extendedGCD_emod_fst a m hm).1 hc)
  rw [modInverse_of_pos a m hm]
  simp [h1]

theorem isCoprime_PRIME_iff (a : Int) : IsCoprime a PRIME ↔ ¬ PRIME ∣ a := by
  rw [isCoprime_comm]
  exact PRIME_prime.coprime_iff_not_dvd

/-- C3: for every integer `a` with `1 ≤ a ≤ PRIME - 1`, `modInverse(a, PRIME)` returns a value
`r` (it raises no error) and `a * r` reduced modulo `PRIME` is `1`. -/
theorem modInverse_PRIME_correct (a : Int) (h1 : 1 ≤ a) (h2 : a ≤ PRIME - 1) :
    ∃ r, modInverse a PRIME = Except.ok r ∧ Int.tmod (a * r) PRIME = 1 := by
  have hco : IsCoprime a PRIME := by
    rw [isCoprime_PRIME_iff]
    intro hd
    have := Int.le_of_dvd (by omega) hd
    omega
  obtain ⟨r, hr, h0, _, hmul⟩ := modInverse_coprime a PRIME PRIME_pos hco
  refine ⟨r, hr, ?_⟩
  rw [Int.tmod_eq_emod (mul_nonneg (by omega) h0) PRIME_pos.le, hmul]
  exact Int.emod_eq_of_lt (by norm_num) (by unfold PRIME; norm_num)

theorem modInverse_PRIME_correct_witness :
    (1 : Int) ≤ 5 ∧ (5 : Int) ≤ PRIME - 1 ∧
      ∃ r, modInverse 5 PRIME = Except.ok r ∧ Int.tmod (5 * r) PRIME = 1 :=
  ⟨by decide, by decide, modInverse_PRIME_correct 5 (by decide) (by decide)⟩

/-- C4: for every integer `a`, of either sign, `modInverse(a, PRIME)` raises 'Modular inverse
does not exist' if and only if `a` is congruent to `0` modulo `PRIME`. -/
theorem modInverse_PRIME_error_iff (a : Int) :
    modInverse a PRIME = Except.error JSError.noInverse ↔ a ≡ 0 [ZMOD PRIME] := by
  rw [Int.modEq_zero_iff_dvd]
  constructor
  · intro h
    by_contra hd
    obtain ⟨r, hr, _⟩ := modInverse_coprime a PRIME PRIME_pos ((isCoprime_PRIME_iff a).2 hd)
    rw [hr] at h
    cases h
  · intro hd
    exact modInverse_not_coprime a PRIME PRIME_pos (fun hc => (isCoprime_PRIME_iff a).1 hc hd)

/-! ## The `parseInt` path of `fromBase` -/

/-- C1: on the fixture `testCase1` (k = 3, shares in bases 10, 2, 10 and 4) `reconstructSecret`
does not return "3": every share is decoded by `parseInt` into a Number, and the first product
`yj * basis` of a Number with a BigInt raises a `TypeError`. -/
theorem reconstructSecret_testCase1 :
    reconstructSecret testCase1 = Except.error JSError.typeError := by
  rfl

/-- C2: on the 40-digit base-3 fixture string `fromBase` returns a Number, the double
`10788619898233491456`, while the positional value of the string, which the big-integer loop
computes from the same digits, is `10788619898233492461`; no double equals that value. -/
theorem fromBase_base3_fixture_inexact :
    fromBase "2122212201122002221120200210011020220200" 3
        = Except.ok (JSValue.number (JSNumber.int false 10788619898233491456)) ∧
      fromBaseLoop 3 "2122212201122002221120200210011020220200".toList 0
        = Except.ok 10788619898233492461 ∧
      ∀ m e : Nat, m < 2 ^ 53 → m * 2 ^ e ≠ 10788619898233492461 := by
  refine ⟨by rfl, by rfl, ?_⟩
  intro m e hm h
  cases e with
  | zero => omega
  | succ e =>
    have h2 : 2 ∣ m * 2 ^ (e + 1) := Dvd.dvd.mul_left (dvd_pow_self 2 (Nat.succ_ne_zero e)) m
    omega

/-- C5: for a base of at most 10 an invalid digit raises no error: `fromBase("12", 2)` returns
the Number `1`, read from the prefix before the invalid `2`, and `fromBase("z", 10)` returns
`NaN`. -/
theorem fromBase_invalid_digit_accepted :
    fromBase "12" 2 = Except.ok (JSValue.number (JSNumber.int false 1)) ∧
      fromBase "z" 10 = Except.ok (JSValue.number JSNumber.nan) := by
  exact ⟨by rfl, by rfl⟩

/-! ## The loops of `lagrangeBasis` and `reconstructSecret` -/

theorem tmod_modEq (a m : Int) : Int.tmod a m ≡ a [ZMOD m] := by
  rw [Int.tmod_def]
  have : a - m * a.tdiv m = a + m * (-(a.tdiv m)) := by ring
  rw [this]
  exact Int.add_mul_emod_self_left _ _ _

theorem lagrangeBasisLoop_eq_prodLoop (points : List Point) (j : Nat) (x : Int) (pj : Point)
    (hj : points[j]? = some pj) : ∀ (rest : List Point) (i : Nat) (result : Int),
    lagrangeBasisLoop points j x i rest result =
      prodLoop x pj.x (if i ≤ j then rest.eraseIdx (j - i) else rest) result := by
  intro rest
  induction rest with
  | nil => intro i result; simp [lagrangeBasisLoop, prodLoop]
  | cons p rest ih =>
    intro i result
    rw [lagrangeBasisLoop]
    by_cases hij : i = j
    · subst hij
      simp only [ne_eq, not_true_eq_false, if_false, le_refl, if_true, Nat.sub_self,
        List.eraseIdx_cons_zero]
      rw [ih]
      simp
    · simp only [ne_eq, hij, not_false_eq_true, if_true, hj]
      have key : prodLoop x pj.x (p :: (if i + 1 ≤ j then rest.eraseIdx (j - (i + 1)) else rest))
          result = prodLoop x pj.x (if i ≤ j then (p :: rest).eraseIdx (j - i) else p :: rest)
            result := by
        by_cases hlt : i < j
        · have h1 : i + 1 ≤ j := hlt
          have h2 : i ≤ j := hlt.le
          have h3 : j - i = (j - (i + 1)) + 1 := by omega
          simp only [h1, h2, if_true]
          rw [h3, List.eraseIdx_cons_succ]
        · have h1 : ¬ i + 1 ≤ j := by omega
          have h2 : ¬ i ≤ j := by omega
          simp only [h1, h2, if_false]
      rw [← key, prodLoop, basisFactor]
      cases h1 : toBigInt p.x with
      | error e => simp
      | ok xi =>
        cases h2 : toBigInt pj.x with
        | error e => simp
        | ok xj =>
          cases h3 : modInverse (xj - xi) PRIME with
          | error e => simp [h3]
          | ok inv => simp [h3, ih]

theorem lagrangeBasis_eq_prodLoop (points : List Point) (j : Nat) (x : Int) (pj : Point)
    (hj : points[j]? = some pj) :
    lagrangeBasis points j x = prodLoop x pj.x (points.eraseIdx j) 1 := by
  unfold lagrangeBasis
  rw [lagrangeBasisLoop_eq_prodLoop points j x pj hj]
  simp

theorem prodLoop_ok_iff (x : Int) (xjN : JSNumber) : ∀ (l : List Point) (r : Int),
    (∃ r', prodLoop x xjN l r = Except.ok r') ↔
      ∀ p ∈ l, ∃ f, basisFactor x xjN p = Except.ok f := by
  intro l
  induction l with
  | nil => intro r; simp [prodLoop]
  | cons p l ih =>
    intro r
    rw [prodLoop]
    cases h : basisFactor x xjN p with
    | error e => simp [h]
    | ok f => simp [h, ih]

theorem prodLoop_modEq (x : Int) (xjN : JSNumber) : ∀ (l : List Point) (r r' : Int),
    prodLoop x xjN l r = Except.ok r' →
      r' ≡ r * (l.map (factorVal x xjN)).prod [ZMOD PRIME] := by
  intro l
  induction l with
  | nil =>
    intro r r' h
    simp only [prodLoop, Except.ok.injEq] at h
    subst h
    simp
  | cons p l ih =>
    intro r r' h
    rw [prodLoop] at h
    cases hf : basisFactor x xjN p with
    | error e => rw [hf] at h; cases h
    | ok f =>
      rw [hf] at h
      have h1 := ih _ _ h
      have h2 : factorVal x xjN p = f := by simp [factorVal, hf]
      rw [List.map_cons, List.prod_cons, h2, ← mul_assoc]
      exact h1.trans (Int.ModEq.mul_right _ (tmod_modEq _ _))

theorem eraseIdx_perm_erase (l : List Point) (j : Nat) (p : Point) (h : l[j]? = some p) :
    (l.eraseIdx j).Perm (l.erase p) := by
  induction l generalizing j with
  | nil => simp at h
  | cons a l ih =>
    cases j with
    | zero =>
      simp only [List.getElem?_cons_zero, Option.some.injEq] at h
      subst h
      simp
    | succ j =>
      simp only [List.getElem?_cons_succ] at h
      rw [List.eraseIdx_cons_succ]
      by_cases hap : a = p
      · subst hap
        rw [List.erase_cons_head]
        have h1 : l.Perm (a :: l.erase a) := List.perm_cons_erase (List.getElem?_mem h)
        exact (List.Perm.cons a (ih j h)).trans h1.symm
      · rw [List.erase_cons_tail (by simpa using hap)]
        exact List.Perm.cons a (ih j h)

theorem lagrangeBasis_ok_iff (pts : List Point) (j : Nat) (x : Int) (pj : Point)
    (hj : pts[j]? = some pj) :
    (∃ b, lagrangeBasis pts j x = Except.ok b) ↔
      ∀ q ∈ pts.erase pj, ∃ f, basisFactor x pj.x q = Except.ok f := by
  rw [lagrangeBasis_eq_prodLoop pts j x pj hj, prodLoop_ok_iff]
  have hp := eraseIdx_perm_erase pts j pj hj
  constructor
  · intro h q hq
    exact h q (hp.mem_iff.2 hq)
  · intro h q hq
    exact h q (hp.mem_iff.1 hq)

theorem lagrangeBasis_modEq (pts : List Point) (j : Nat) (x : Int) (pj : Point)
    (hj : pts[j]? = some pj) (b : Int) (h : lagrangeBasis pts j x = Except.ok b) :
    b ≡ ((pts.erase pj).map (factorVal x pj.x)).prod [ZMOD PRIME] := by
  rw [lagrangeBasis_eq_prodLoop pts j x pj hj] at h
  have h1 := prodLoop_modEq x pj.x _ _ _ h
  rw [one_mul] at h1
  have hp := eraseIdx_perm_erase pts j pj hj
  rw [← (hp.map (factorVal x pj.x)).prod_eq]
  exact h1

theorem take_succ_drop (pts : List Point) (n j : Nat) (hj : j < pts.length) :
    (pts.drop j).take (n + 1) = pts[j] :: (pts.drop (j + 1)).take n := by
  rw [List.drop_eq_getElem_cons hj, List.take_succ_cons]

theorem secretLoop_ok_iff (pts : List Point) : ∀ (n j : Nat) (secret : Int),
    j + n ≤ pts.length →
      ((∃ s, secretLoop pts n j secret = Except.ok s) ↔
        ∀ p ∈ (pts.drop j).take n, Good pts p) := by
  intro n
  induction n with
  | zero => intro j secret _; simp [secretLoop]
  | succ n ih =>
    intro j secret hjn
    have hj : j < pts.length := by omega
    have hget : pts[j]? = some pts[j] := List.getElem?_eq_getElem hj
    rw [take_succ_drop pts n j hj, secretLoop, hget]
    simp only [List.mem_cons, forall_eq_or_imp]
    have hb := lagrangeBasis_ok_iff pts j 0 pts[j] hget
    cases hl : lagrangeBasis pts j 0 with
    | error e =>
      rw [hl] at hb
      have : ¬ Good pts pts[j] := fun hg => by
        obtain ⟨b, hb1⟩ := hb.2 hg.2
        cases hb1
      simp [this]
    | ok basis =>
      rw [hl] at hb
      have hfac := hb.1 ⟨basis, rfl⟩
      cases hy : (pts[j]).y with
      | number d =>
        have : ¬ Good pts pts[j] := fun hg => by
          obtain ⟨y, hy1⟩ := hg.1
          rw [hy] at hy1
          cases hy1
        simp [this]
      | bigint yj =>
        have hg : Good pts pts[j] := ⟨⟨yj, hy⟩, hfac⟩
        simp only [hg, true_and]
        exact ih (j + 1) _ (by omega)

theorem secretLoop_modEq (pts : List Point) : ∀ (n j : Nat) (secret s : Int),
    j + n ≤ pts.length → secretLoop pts n j secret = Except.ok s →
      s ≡ secret + (((pts.drop j).take n).map (termVal pts)).sum [ZMOD PRIME] := by
  intro n
  induction n with
  | zero =>
    intro j secret s _ h
    simp only [secretLoop, Except.ok.injEq] at h
    subst h
    simp
  | succ n ih =>
    intro j secret s hjn h
    have hj : j < pts.length := by omega
    have hget : pts[j]? = some pts[j] := List.getElem?_eq_getElem hj
    rw [secretLoop, hget] at h
    rw [take_succ_drop pts n j hj, List.map_cons, List.sum_cons]
    cases hl : lagrangeBasis pts j 0 with
    | error e => rw [hl] at h; cases h
    | ok basis =>
      rw [hl] at h
      have hb := lagrangeBasis_modEq pts j 0 pts[j] hget basis hl
      cases hy : (pts[j]).y with
      | number d => simp [hy] at h
      | bigint yj =>
        simp only [hy] at h
        have h1 := ih (j + 1) _ s (by omega) h
        have hterm : termVal pts pts[j] ≡ yj * basis [ZMOD PRIME] := by
          unfold termVal yVal
          rw [hy]
          exact Int.ModEq.mul_left _ hb.symm
        refine h1.trans ?_
        rw [← add_assoc]
        exact Int.ModEq.add_right _ ((tmod_modEq _ _).trans (Int.ModEq.add_left _ hterm.symm))

theorem interpolate_ok_iff (pts : List Point) (v : Int) :
    interpolate pts pts.length = Except.ok v ↔
      (∀ p ∈ pts, Good pts p) ∧ v = lagrangeSum pts % PRIME := by
  have hok := secretLoop_ok_iff pts pts.length 0 0 (by simp)
  have hval := secretLoop_modEq pts pts.length 0 0
  simp only [List.drop_zero, List.take_length, zero_add] at hok hval
  unfold interpolate
  simp only [Int.toNat_ofNat]
  cases hs : secretLoop pts pts.length 0 0 with
  | error e =>
    rw [hs] at hok
    constructor
    · intro h
      cases h
    · rintro ⟨hg, _⟩
      obtain ⟨s, hs1⟩ := hok.2 hg
      cases hs1
  | ok s =>
    rw [hs] at hok
    have hg := hok.1 ⟨s, rfl⟩
    have hv := hval s (by simp) hs
    have hsum : s % PRIME = lagrangeSum pts % PRIME := hv
    simp only [Except.ok.injEq, tmod_add_tmod _ _ PRIME_pos, hsum]
    constructor
    · intro h
      exact ⟨hg, h.symm⟩
    · rintro ⟨_, h⟩
      exact h.symm

theorem good_perm (pts pts1 : List Point) (h : pts.Perm pts1) (p : Point) :
    Good pts p ↔ Good pts1 p := by
  unfold Good
  have he := h.erase p
  constructor
  · rintro ⟨hy, hf⟩
    exact ⟨hy, fun q hq => hf q (he.mem_iff.2 hq)⟩
  · rintro ⟨hy, hf⟩
    exact ⟨hy, fun q hq => hf q (he.mem_iff.1 hq)⟩

theorem lagrangeSum_perm (pts pts1 : List Point) (h : pts.Perm pts1) :
    lagrangeSum pts = lagrangeSum pts1 := by
  unfold lagrangeSum
  have h1 : pts.map (termVal pts) = pts.map (termVal pts1) := by
    apply List.map_congr_left
    intro p _
    unfold termVal
    rw [((h.erase p).map (factorVal 0 p.x)).prod_eq]
  rw [h1]
  exact (h.map (termVal pts1)).sum_eq

/-- C8: the interpolation that `reconstructSecret` performs on its `k` selected points (the
accumulation loop with `lagrangeBasis`, then the final normalisation) returns the same value
on a permutation of the points, and raises an error on one list exactly when it does on the
other. -/
theorem interpolate_perm (pts pts1 : List Point) (h : pts.Perm pts1) :
    (∀ v, interpolate pts pts.length = Except.ok v ↔
        interpolate pts1 pts1.length = Except.ok v) ∧
      ((∃ e, interpolate pts pts.length = Except.error e) ↔
        ∃ e, interpolate pts1 pts1.length = Except.error e) := by
  have hv : ∀ v, interpolate pts pts.length = Except.ok v ↔
      interpolate pts1 pts1.length = Except.ok v := by
    intro v
    rw [interpolate_ok_iff, interpolate_ok_iff, lagrangeSum_perm pts pts1 h]
    constructor
    · rintro ⟨hg, hv⟩
      exact ⟨fun p hp => (good_perm pts pts1 h p).1 (hg p (h.mem_iff.2 hp)), hv⟩
    · rintro ⟨hg, hv⟩
      exact ⟨fun p hp => (good_perm pts pts1 h p).2 (hg p (h.mem_iff.1 hp)), hv⟩
  refine ⟨hv, ?_⟩
  constructor
  · rintro ⟨e, he⟩
    cases h1 : interpolate pts1 pts1.length with
    | error e1 => exact ⟨e1, rfl⟩
    | ok v => rw [(hv v).2 h1] at he; cases he
  · rintro ⟨e, he⟩
    cases h1 : interpolate pts pts.length with
    | error e1 => exact ⟨e1, rfl⟩
    | ok v => rw [(hv v).1 h1] at he; cases he

theorem interpolate_perm_witness :
    (∀ v, interpolate [⟨JSNumber.int false 1, JSValue.bigint 10⟩,
          ⟨JSNumber.int false 2, JSValue.bigint 12⟩]
          ([⟨JSNumber.int false 1, JSValue.bigint 10⟩,
            ⟨JSNumber.int false 2, JSValue.bigint 12⟩] : List Point).length = Except.ok v ↔
        interpolate [⟨JSNumber.int false 2, JSValue.bigint 12⟩,
          ⟨JSNumber.int false 1, JSValue.bigint 10⟩]
          ([⟨JSNumber.int false 2, JSValue.bigint 12⟩,
            ⟨JSNumber.int false 1, JSValue.bigint 10⟩] : List Point).length = Except.ok v) ∧
      ((∃ e, interpolate [⟨JSNumber.int false 1, JSValue.bigint 10⟩,
          ⟨JSNumber.int false 2, JSValue.bigint 12⟩]
          ([⟨JSNumber.int false 1, JSValue.bigint 10⟩,
            ⟨JSNumber.int false 2, JSValue.bigint 12⟩] : List Point).length
          = Except.error e) ↔
        ∃ e, interpolate [⟨JSNumber.int false 2, JSValue.bigint 12⟩,
          ⟨JSNumber.int false 1, JSValue.bigint 10⟩]
          ([⟨JSNumber.int false 2, JSValue.bigint 12⟩,
            ⟨JSNumber.int false 1, JSValue.bigint 10⟩] : List Point).length
          = Except.error e) :=
  interpolate_perm _ _ (List.Perm.swap _ _ _)

/-! ## Which errors the loops can raise -/

theorem modInverse_PRIME_error (a : Int) (e : JSError)
    (h : modInverse a PRIME = Except.error e) : e = JSError.noInverse := by
  rw [modInverse_of_pos a PRIME PRIME_pos] at h
  split at h
  · cases h; rfl
  · cases h

theorem toBigInt_error (n : JSNumber) (e : JSError) (h : toBigInt n = Except.error e) :
    e = JSError.rangeError := by
  cases n <;> simp [toBigInt] at h <;> exact h.symm

theorem basisFactor_error (x : Int) (xjN : JSNumber) (p : Point) (e : JSError)
    (h : basisFactor x xjN p = Except.error e) :
    e = JSError.rangeError ∨ e = JSError.noInverse := by
  unfold basisFactor at h
  cases h1 : toBigInt p.x with
  | error e1 =>
    rw [h1] at h
    simp only [Except.error.injEq] at h
    subst h
    exact Or.inl (toBigInt_error _ _ h1)
  | ok xi =>
    rw [h1] at h
    cases h2 : toBigInt xjN with
    | error e2 =>
      rw [h2] at h
      simp only [Except.error.injEq] at h
      subst h
      exact Or.inl (toBigInt_error _ _ h2)
    | ok xj =>
      rw [h2] at h
      cases h3 : modInverse (xj - xi) PRIME with
      | error e3 =>
        simp only [h3, Except.error.injEq] at h
        subst h
        exact Or.inr (modInverse_PRIME_error _ _ h3)
      | ok inv => simp [h3] at h

theorem prodLoop_error (x : Int) (xjN : JSNumber) (S : JSError → Prop) :
    ∀ (l : List Point) (r : Int),
      (∀ p ∈ l, ∀ e, basisFactor x xjN p = Except.error e → S e) →
      ∀ e, prodLoop x xjN l r = Except.error e → S e := by
  intro l
  induction l with
  | nil => intro r _ e h; simp [prodLoop] at h
  | cons p l ih =>
    intro r hS e h
    rw [prodLoop] at h
    cases hf : basisFactor x xjN p with
    | error e1 =>
      rw [hf] at h
      simp only [Except.error.injEq] at h
      subst h
      exact hS p (List.mem_cons_self _ _) _ hf
    | ok f =>
      rw [hf] at h
      exact ih _ (fun q hq => hS q (List.mem_cons_of_mem _ hq)) e h

theorem lagrangeBasis_error (pts : List Point) (j : Nat) (x : Int) (pj : Point)
    (hj : pts[j]? = some pj) (S : JSError → Prop)
    (hS : ∀ q ∈ pts, ∀ e, basisFactor x pj.x q = Except.error e → S e) :
    ∀ e, lagrangeBasis pts j x = Except.error e → S e := by
  rw [lagrangeBasis_eq_prodLoop pts j x pj hj]
  apply prodLoop_error
  intro q hq
  exact hS q (List.mem_of_mem_eraseIdx hq)

theorem secretLoop_error (pts : List Point) (S : JSError → Prop)
    (hfac : ∀ p ∈ pts, ∀ q ∈ pts, ∀ e, basisFactor 0 p.x q = Except.error e → S e)
    (hy : ∀ p ∈ pts, (∃ y, p.y = JSValue.bigint y) ∨ S JSError.typeError) :
    ∀ (n j : Nat) (secret : Int), j + n ≤ pts.length →
      ∀ e, secretLoop pts n j secret = Except.error e → S e := by
  intro n
  induction n with
  | zero => intro j secret _ e h; simp [secretLoop] at h
  | succ n ih =>
    intro j secret hjn e h
    have hj : j < pts.length := by omega
    have hget : pts[j]? = some pts[j] := List.getElem?_eq_getElem hj
    have hmem : pts[j] ∈ pts := List.getElem_mem hj
    rw [secretLoop, hget] at h
    cases hl : lagrangeBasis pts j 0 with
    | error e1 =>
      rw [hl] at h
      simp only [Except.error.injEq] at h
      subst h
      exact lagrangeBasis_error pts j 0 pts[j] hget S (hfac _ hmem) _ hl
    | ok basis =>
      rw [hl] at h
      cases hyj : (pts[j]).y with
      | number d =>
        simp only [hyj, Except.error.injEq] at h
        subst h
        rcases hy _ hmem with ⟨y, hy1⟩ | hs
        · rw [hyj] at hy1; cases hy1
        · exact hs
      | bigint yj =>
        simp only [hyj] at h
        exact ih (j + 1) _ (by omega) e h

theorem interpolate_error (pts : List Point) (S : JSError → Prop)
    (hfac : ∀ p ∈ pts, ∀ q ∈ pts, ∀ e, basisFactor 0 p.x q = Except.error e → S e)
    (hy : ∀ p ∈ pts, (∃ y, p.y = JSValue.bigint y) ∨ S JSError.typeError)
    (n : Nat) (hn : n ≤ pts.length) :
    ∀ e, interpolate pts n = Except.error e → S e := by
  intro e h
  unfold interpolate at h
  simp only [Int.toNat_ofNat] at h
  cases hs : secretLoop pts n 0 0 with
  | error e1 =>
    simp only [hs, Except.error.injEq] at h
    subst h
    exact secretLoop_error pts S hfac hy n 0 0 (by omega) _ hs
  | ok s => simp [hs] at h

/-! ## `reconstructSecret`: decoding and selection -/

theorem objectEntries_perm (l : List (String × Share)) : (objectEntries l).Perm l := by
  unfold objectEntries
  exact ((List.perm_insertionSort keyLE _).append_right _).trans (List.filter_append_perm _ l)

theorem decodePoints_length : ∀ (l : List (String × Share)) (pts : List Point),
    decodePoints l = Except.ok pts → pts.length = l.length := by
  intro l
  induction l with
  | nil => intro pts h; simp only [decodePoints, Except.ok.injEq] at h; subst h; rfl
  | cons a l ih =>
    intro pts h
    obtain ⟨x, data⟩ := a
    rw [decodePoints] at h
    cases hf : fromBase data.value data.base with
    | error e => simp [hf] at h
    | ok y =>
      cases hd : decodePoints l with
      | error e => simp [hf, hd] at h
      | ok pts1 =>
        simp only [hf, hd, Except.ok.injEq] at h
        subst h
        simp [ih pts1 hd]

theorem decodePoints_ok : ∀ (l : List (String × Share)),
    (∀ p ∈ l, ∃ y, fromBase p.2.value p.2.base = Except.ok y) →
      ∃ pts, decodePoints l = Except.ok pts := by
  intro l
  induction l with
  | nil => intro _; exact ⟨[], rfl⟩
  | cons a l ih =>
    intro h
    obtain ⟨x, data⟩ := a
    obtain ⟨y, hy⟩ := h (x, data) (List.mem_cons_self _ _)
    obtain ⟨pts, hpts⟩ := ih (fun p hp => h p (List.mem_cons_of_mem _ hp))
    exact ⟨⟨parseInt x 0, y⟩ :: pts, by simp only [decodePoints] at hy ⊢; simp [hy, hpts]⟩

theorem decodePoints_take : ∀ (l : List (String × Share)) (pts : List Point) (n : Nat),
    decodePoints l = Except.ok pts → decodePoints (l.take n) = Except.ok (pts.take n) := by
  intro l
  induction l with
  | nil =>
    intro pts n h
    simp only [decodePoints, Except.ok.injEq] at h
    subst h
    simp [decodePoints]
  | cons a l ih =>
    intro pts n h
    obtain ⟨x, data⟩ := a
    rw [decodePoints] at h
    cases hf : fromBase data.value data.base with
    | error e => simp [hf] at h
    | ok y =>
      cases hd : decodePoints l with
      | error e => simp [hf, hd] at h
      | ok pts1 =>
        simp only [hf, hd, Except.ok.injEq] at h
        subst h
        cases n with
        | zero => simp [decodePoints]
        | succ n =>
          simp only [List.take_succ_cons, decodePoints]
          simp [hf, ih pts1 n hd]

theorem slice_eq_take (pts : List Point) (k : Int) (hk : 0 ≤ k) :
    slice pts k = pts.take k.toNat := by
  unfold slice
  simp [not_lt.2 hk]

theorem toNat_le_length_slice (pts : List Point) (k : Int) (hk : k ≤ pts.length) :
    k.toNat ≤ (slice pts k).length := by
  rcases lt_or_le k 0 with h | h
  · have : k.toNat = 0 := by omega
    omega
  · rw [slice_eq_take pts k h, List.length_take]
    omega

theorem basisFactor_ne_notEnough (x : Int) (xjN : JSNumber) (p : Point) (e : JSError)
    (h : basisFactor x xjN p = Except.error e) : e ≠ JSError.notEnoughPoints := by
  rcases basisFactor_error x xjN p e h with rfl | rfl <;> simp

/-- C7: for an input whose share entries all decode, `reconstructSecret` raises 'Not enough
points provided' if and only if the number of share entries is less than `k`; the result is
then that error and no value. -/
theorem reconstructSecret_notEnough_iff (input : InputData)
    (hdec : ∀ p ∈ input.shares, ∃ y, fromBase p.2.value p.2.base = Except.ok y) :
    reconstructSecret input = Except.error JSError.notEnoughPoints ↔
      (input.shares.length : Int) < input.k := by
  have hperm := objectEntries_perm input.shares
  obtain ⟨pts, hpts⟩ := decodePoints_ok (objectEntries input.shares)
    (fun p hp => hdec p (hperm.mem_iff.1 hp))
  have hlen : pts.length = input.shares.length := by
    rw [decodePoints_length _ _ hpts, hperm.length_eq]
  unfold reconstructSecret
  rw [hpts]
  simp only [hlen]
  by_cases hlt : (input.shares.length : Int) < input.k
  · simp [hlt]
  · simp only [hlt, if_false, iff_false]
    have hle : input.k ≤ pts.length := by rw [hlen]; omega
    cases hi : interpolate (slice pts input.k) input.k with
    | ok v => simp
    | error e =>
      have hne : e ≠ JSError.notEnoughPoints := by
        have hk := toNat_le_length_slice pts input.k hle
        unfold interpolate at hi
        cases hs : secretLoop (slice pts input.k) input.k.toNat 0 0 with
        | ok s => simp [hs] at hi
        | error e1 =>
          simp only [hs, Except.error.injEq] at hi
          subst hi
          exact secretLoop_error (slice pts input.k) (fun e => e ≠ JSError.notEnoughPoints)
            (fun p _ q _ e he => basisFactor_ne_notEnough 0 p.x q e he)
            (fun p _ => Or.inr (by simp)) input.k.toNat 0 0 (by omega) _ hs
      simpa using hne

theorem reconstructSecret_notEnough_iff_witness :
    reconstructSecret ⟨5, [("1", ⟨16, "a"⟩), ("2", ⟨16, "b"⟩), ("3", ⟨16, "c"⟩)]⟩
        = Except.error JSError.notEnoughPoints ↔ ((3 : Nat) : Int) < 5 :=
  reconstructSecret_notEnough_iff ⟨5, [("1", ⟨16, "a"⟩), ("2", ⟨16, "b"⟩), ("3", ⟨16, "c"⟩)]⟩
    (by
      intro p hp
      simp only [List.mem_cons, List.mem_singleton, List.not_mem_nil, or_false] at hp
      rcases hp with rfl | rfl | rfl <;> exact ⟨_, rfl⟩)

/-! ## Repeated x-coordinates -/

theorem modInverse_PRIME_of_dvd (a : Int) (h : PRIME ∣ a) :
    modInverse a PRIME = Except.error JSError.noInverse :=
  modInverse_not_coprime a PRIME PRIME_pos (fun hc => (isCoprime_PRIME_iff a).1 hc h)

theorem basisFactor_error_of_int (x : Int) (xjN : JSNumber) (q : Point) (xi xj : Int)
    (hq : toBigInt q.x = Except.ok xi) (hj : toBigInt xjN = Except.ok xj) (e : JSError)
    (h : basisFactor x xjN q = Except.error e) : e = JSError.noInverse := by
  unfold basisFactor at h
  rw [hq, hj] at h
  cases h3 : modInverse (xj - xi) PRIME with
  | error e3 =>
    simp only [h3, Except.error.injEq] at h
    subst h
    exact modInverse_PRIME_error _ _ h3
  | ok inv => simp [h3] at h

theorem basisFactor_of_congruent (x : Int) (xjN : JSNumber) (q : Point) (xi xj : Int)
    (hq : toBigInt q.x = Except.ok xi) (hj : toBigInt xjN = Except.ok xj)
    (hc : xj ≡ xi [ZMOD PRIME]) :
    basisFactor x xjN q = Except.error JSError.noInverse := by
  unfold basisFactor
  rw [hq, hj]
  have hd : PRIME ∣ xj - xi := (Int.modEq_iff_dvd.1 hc.symm)
  simp [modInverse_PRIME_of_dvd _ hd]

/-- C6, as amended: if the input has at least `k` entries, the first `k` decoded points have
integer x-coordinates and BigInt y-coordinates, and two of them (at positions `i < j < k`,
which forces `k ≥ 2`) have x-coordinates congruent modulo `PRIME`, then `reconstructSecret`
raises 'Modular inverse does not exist' and returns no value. -/
theorem reconstructSecret_duplicate_x (input : InputData) (pts : List Point)
    (hdec : decodePoints (objectEntries input.shares) = Except.ok pts)
    (hlen : input.k ≤ pts.length)
    (htyped : ∀ p ∈ pts.take input.k.toNat,
      (∃ x, toBigInt p.x = Except.ok x) ∧ ∃ y, p.y = JSValue.bigint y)
    (i j : Nat) (hij : i < j) (hjk : (j : Int) < input.k) (pi pj : Point) (xi xj : Int)
    (hpi : pts[i]? = some pi) (hpj : pts[j]? = some pj)
    (hxi : toBigInt pi.x = Except.ok xi) (hxj : toBigInt pj.x = Except.ok xj)
    (hcong : xi ≡ xj [ZMOD PRIME]) :
    reconstructSecret input = Except.error JSError.noInverse := by
  have hk0 : 0 ≤ input.k := by omega
  have hjn : j < input.k.toNat := by omega
  have hnlen : input.k.toNat ≤ pts.length := by omega
  have hsel : slice pts input.k = pts.take input.k.toNat := slice_eq_take pts input.k hk0
  have hsellen : (pts.take input.k.toNat).length = input.k.toNat :=
    List.length_take_of_le hnlen
  have hkeq : input.k = ((pts.take input.k.toNat).length : Int) := by
    rw [hsellen]
    exact (Int.toNat_of_nonneg hk0).symm
  have hgi : (pts.take input.k.toNat)[i]? = some pi := by
    rw [List.getElem?_take_of_lt (by omega)]
    exact hpi
  have hgj : (pts.take input.k.toNat)[j]? = some pj := by
    rw [List.getElem?_take_of_lt hjn]
    exact hpj
  have hint : interpolate (pts.take input.k.toNat) (pts.take input.k.toNat).length
      = Except.error JSError.noInverse := by
    cases h : interpolate (pts.take input.k.toNat) (pts.take input.k.toNat).length with
    | ok v =>
      exfalso
      have hg := ((interpolate_ok_iff _ v).1 h).1 pi (List.getElem?_mem hgi)
      have hmem : pj ∈ (pts.take input.k.toNat).erase pi := by
        apply (eraseIdx_perm_erase _ i pi hgi).mem_iff.1
        rw [List.mem_eraseIdx_iff_getElem?]
        exact ⟨j, by omega, hgj⟩
      obtain ⟨f, hf⟩ := hg.2 pj hmem
      rw [basisFactor_of_congruent 0 pi.x pj xj xi hxj hxi hcong] at hf
      cases hf
    | error e =>
      have := interpolate_error (pts.take input.k.toNat) (fun e => e = JSError.noInverse)
        (fun p hp q hq e he => by
          obtain ⟨⟨xp, hxp⟩, _⟩ := htyped p hp
          obtain ⟨⟨xq, hxq⟩, _⟩ := htyped q hq
          exact basisFactor_error_of_int 0 p.x q xq xp hxq hxp e he)
        (fun p hp => Or.inl (htyped p hp).2)
        (pts.take input.k.toNat).length le_rfl e h
      rw [this]
  have hintk : interpolate (pts.take input.k.toNat) input.k
      = Except.error JSError.noInverse := by
    have hsame : interpolate (pts.take input.k.toNat) input.k
        = interpolate (pts.take input.k.toNat) (pts.take input.k.toNat).length := by
      rw [← hkeq]
    rw [hsame]
    exact hint
  unfold reconstructSecret
  rw [hdec]
  simp only [not_lt.2 hlen, if_false, hsel, hintk]

theorem reconstructSecret_duplicate_x_witness :
    reconstructSecret ⟨2, [("1", ⟨16, "a"⟩), ("01", ⟨16, "b"⟩)]⟩
      = Except.error JSError.noInverse :=
  reconstructSecret_duplicate_x ⟨2, [("1", ⟨16, "a"⟩), ("01", ⟨16, "b"⟩)]⟩
    [⟨JSNumber.int false 1, JSValue.bigint 10⟩, ⟨JSNumber.int false 1, JSValue.bigint 11⟩]
    (by rfl) (by decide)
    (by
      intro p hp
      have hp2 : p ∈ [(⟨JSNumber.int false 1, JSValue.bigint 10⟩ : Point),
          ⟨JSNumber.int false 1, JSValue.bigint 11⟩] := hp
      simp only [List.mem_cons, List.mem_singleton, List.not_mem_nil, or_false] at hp2
      rcases hp2 with rfl | rfl <;> exact ⟨⟨_, rfl⟩, ⟨_, rfl⟩⟩)
    0 1 (by decide) (by decide) ⟨JSNumber.int false 1, JSValue.bigint 10⟩
    ⟨JSNumber.int false 1, JSValue.bigint 11⟩ 1 1 (by rfl) (by rfl) (by rfl) (by rfl)
    (Int.ModEq.refl 1)

/-- C6, the claim as stated fails: with `k = 3` and the two entries "1" and "01", both of
which decode and have x-coordinate `1`, `reconstructSecret` raises 'Not enough points
provided', not 'Modular inverse does not exist'. -/
theorem reconstructSecret_duplicate_x_counterexample :
    decodePoints (objectEntries [("1", ⟨16, "a"⟩), ("01", ⟨16, "b"⟩)])
        = Except.ok [⟨JSNumber.int false 1, JSValue.bigint 10⟩,
            ⟨JSNumber.int false 1, JSValue.bigint 11⟩] ∧
      reconstructSecret ⟨3, [("1", ⟨16, "a"⟩), ("01", ⟨16, "b"⟩)]⟩
        = Except.error JSError.notEnoughPoints ∧
      reconstructSecret ⟨3, [("1", ⟨16, "a"⟩), ("01", ⟨16, "b"⟩)]⟩
        ≠ Except.error JSError.noInverse := by
  refine ⟨by rfl, by rfl, ?_⟩
  intro h
  have h2 : reconstructSecret ⟨3, [("1", ⟨16, "a"⟩), ("01", ⟨16, "b"⟩)]⟩
      = Except.error JSError.notEnoughPoints := by rfl
  rw [h2] at h
  cases h

/-! ## The decimal rendering of the result -/

theorem digitChar_toNat (m : Nat) (hm : m < 10) : (Nat.digitChar m).toNat = 48 + m := by
  interval_cases m <;> rfl

theorem decimalValue_append (ds : List Char) (c : Char) :
    decimalValue (ds ++ [c]) = decimalValue ds * 10 + (c.toNat - 48) := by
  simp [decimalValue, List.foldl_append]

theorem toDigitsCore_eq_digits (fuel : Nat) : ∀ (n : Nat) (acc : List Char),
    n < fuel → 0 < n →
      Nat.toDigitsCore 10 fuel n acc = ((Nat.digits 10 n).reverse.map Nat.digitChar) ++ acc := by
  induction fuel with
  | zero => intro n acc h; omega
  | succ fuel ih =>
    intro n acc hn hpos
    rw [Nat.digits_def' (by norm_num) hpos, Nat.toDigitsCore]
    by_cases h0 : n / 10 = 0
    · simp [h0]
    · have hq : n / 10 < fuel := by omega
      have hq0 : 0 < n / 10 := by omega
      simp only [h0, if_false]
      rw [ih _ _ hq hq0]
      simp

theorem decimalValue_digits : ∀ (L : List Nat), (∀ d ∈ L, d < 10) →
    decimalValue (L.reverse.map Nat.digitChar) = Nat.ofDigits 10 L := by
  intro L
  induction L with
  | nil => intro _; simp [decimalValue]
  | cons a L ih =>
    intro h
    have ha : a < 10 := h a (List.mem_cons_self _ _)
    rw [List.reverse_cons, List.map_append, List.map_singleton, decimalValue_append,
      ih (fun d hd => h d (List.mem_cons_of_mem _ hd)), digitChar_toNat a ha, Nat.ofDigits_cons]
    omega

theorem repr_isCanonicalDecimal (v : Nat) : IsCanonicalDecimal (Nat.repr v) v := by
  rcases Nat.eq_zero_or_pos v with h0 | hpos
  · subst h0
    exact ⟨by decide, by decide, fun _ => rfl, rfl⟩
  · have hl : (Nat.repr v).toList = (Nat.digits 10 v).reverse.map Nat.digitChar := by
      show Nat.toDigitsCore 10 (v + 1) v [] = _
      rw [toDigitsCore_eq_digits (v + 1) v [] (by omega) hpos]
      simp
    have hlt : ∀ d ∈ Nat.digits 10 v, d < 10 := fun d hd => Nat.digits_lt_base (by norm_num) hd
    have hne : Nat.digits 10 v ≠ [] := Nat.digits_ne_nil_iff_ne_zero.2 (by omega)
    unfold IsCanonicalDecimal
    rw [hl]
    refine ⟨by simpa using hne, ?_, ?_, ?_⟩
    · intro c hc
      obtain ⟨d, hd, rfl⟩ := List.mem_map.1 hc
      have := digitChar_toNat d (hlt d (List.mem_reverse.1 hd))
      have := hlt d (List.mem_reverse.1 hd)
      omega
    · intro hhead
      exfalso
      have hlast := Nat.getLast_digit_ne_zero 10 (by omega : v ≠ 0)
      have hmem : (Nat.digits 10 v).getLast hne ∈ Nat.digits 10 v := List.getLast_mem hne
      have hh : ((Nat.digits 10 v).reverse.map Nat.digitChar).head?
          = some (Nat.digitChar ((Nat.digits 10 v).getLast hne)) := by
        rw [List.head?_map, List.head?_reverse, List.getLast?_eq_getLast _ hne]
        rfl
      rw [hh] at hhead
      have h1 := digitChar_toNat _ (hlt _ hmem)
      have h2 : (Nat.digitChar ((Nat.digits 10 v).getLast hne)).toNat = 48 := by
        rw [Option.some.inj hhead]
        rfl
      omega
    · rw [decimalValue_digits _ hlt, Nat.ofDigits_digits]

/-- C9: whenever `reconstructSecret` returns, the string it returns is the canonical unsigned
decimal numeral (digits only, no sign, no leading zero except for the single digit "0") of an
integer `v` with `0 ≤ v < PRIME`. -/
theorem reconstructSecret_canonical (input : InputData) (s : String)
    (h : reconstructSecret input = Except.ok s) :
    ∃ v : Nat, (v : Int) < PRIME ∧ IsCanonicalDecimal s v := by
  unfold reconstructSecret at h
  cases hd : decodePoints (objectEntries input.shares) with
  | error e => simp [hd] at h
  | ok pts =>
    simp only [hd] at h
    split at h
    · cases h
    · cases hi : interpolate (slice pts input.k) input.k with
      | error e => simp [hi] at h
      | ok secret =>
        simp only [hi, Except.ok.injEq] at h
        unfold interpolate at hi
        cases hs : secretLoop (slice pts input.k) input.k.toNat 0 0 with
        | error e => simp [hs] at hi
        | ok s0 =>
          simp only [hs, Except.ok.injEq, tmod_add_tmod _ _ PRIME_pos] at hi
          have hnn : 0 ≤ secret := by rw [← hi]; exact Int.emod_nonneg _ PRIME_pos.ne'
          have hlt : secret < PRIME := by rw [← hi]; exact Int.emod_lt_of_pos _ PRIME_pos
          refine ⟨secret.natAbs, by omega, ?_⟩
          rw [← h]
          unfold bigIntToString
          simp only [not_lt.2 hnn, if_false]
          exact repr_isCanonicalDecimal _

theorem reconstructSecret_canonical_witness :
    ∃ v : Nat, (v : Int) < PRIME ∧ IsCanonicalDecimal "8" v :=
  reconstructSecret_canonical ⟨2, [("1", ⟨16, "a"⟩), ("2", ⟨16, "c"⟩)]⟩ "8" (by rfl)

/-! ## Selection of the first `k` entries -/

theorem objectEntries_of_ordered (A B : List (String × Share))
    (hA : ∀ p ∈ A, (arrayIndex p.1).isSome = true)
    (hB : ∀ p ∈ B, (arrayIndex p.1).isSome = false)
    (hs : List.Sorted keyLE A) : objectEntries (A ++ B) = A ++ B := by
  unfold objectEntries
  have h1 : A.filter (fun p => (arrayIndex p.1).isSome) = A := List.filter_eq_self.2 hA
  have h2 : B.filter (fun p => (arrayIndex p.1).isSome) = [] :=
    List.filter_eq_nil_iff.2 (fun p hp => by simp [hB p hp])
  have h3 : A.filter (fun p => !(arrayIndex p.1).isSome) = [] :=
    List.filter_eq_nil_iff.2 (fun p hp => by simp [hA p hp])
  have h4 : B.filter (fun p => !(arrayIndex p.1).isSome) = B :=
    List.filter_eq_self.2 (fun p hp => by simp [hB p hp])
  rw [List.filter_append, List.filter_append, h1, h2, h3, h4, List.append_nil, List.nil_append,
    hs.insertionSort_eq]

theorem objectEntries_take (l : List (String × Share)) (n : Nat) :
    objectEntries ((objectEntries l).take n) = (objectEntries l).take n := by
  have hA : ∀ p ∈ (l.filter (fun p => (arrayIndex p.1).isSome)).insertionSort keyLE,
      (arrayIndex p.1).isSome = true := by
    intro p hp
    have := (List.perm_insertionSort keyLE _).mem_iff.1 hp
    exact (List.mem_filter.1 this).2
  have hB : ∀ p ∈ l.filter (fun p => !(arrayIndex p.1).isSome),
      (arrayIndex p.1).isSome = false := by
    intro p hp
    simpa using (List.mem_filter.1 hp).2
  have hsorted : List.Sorted keyLE
      ((l.filter (fun p => (arrayIndex p.1).isSome)).insertionSort keyLE) :=
    List.sorted_insertionSort keyLE _
  have htake : (objectEntries l).take n
      = ((l.filter (fun p => (arrayIndex p.1).isSome)).insertionSort keyLE).take n ++
        (l.filter (fun p => !(arrayIndex p.1).isSome)).take
          (n - ((l.filter (fun p => (arrayIndex p.1).isSome)).insertionSort keyLE).length) := by
    unfold objectEntries
    exact List.take_append_eq_append_take
  rw [htake]
  exact objectEntries_of_ordered _ _ (fun p hp => hA p (List.mem_of_mem_take hp))
    (fun p hp => hB p (List.mem_of_mem_take hp)) (List.Pairwise.take hsorted)

/-- C10, as amended: for `k ≥ 1` and an input with at least `k` share entries that all decode,
`reconstructSecret` returns what it returns on the input restricted to the first `k` entries
in `Object.entries` order (array-index keys in ascending numeric order, then the other keys in
creation order); the entries after the `k`-th in that order do not affect the result. -/
theorem reconstructSecret_first_k (input : InputData) (hk : 1 ≤ input.k)
    (hlen : input.k ≤ input.shares.length)
    (hdec : ∀ p ∈ input.shares, ∃ y, fromBase p.2.value p.2.base = Except.ok y) :
    reconstructSecret input =
      reconstructSecret ⟨input.k, (objectEntries input.shares).take input.k.toNat⟩ := by
  have hperm := objectEntries_perm input.shares
  obtain ⟨pts, hpts⟩ := decodePoints_ok (objectEntries input.shares)
    (fun p hp => hdec p (hperm.mem_iff.1 hp))
  have hplen : pts.length = input.shares.length := by
    rw [decodePoints_length _ _ hpts, hperm.length_eq]
  have hk0 : 0 ≤ input.k := by omega
  have hn : input.k.toNat ≤ pts.length := by omega
  have htl : ((pts.take input.k.toNat).length : Int) = input.k := by
    rw [List.length_take_of_le hn]
    exact Int.toNat_of_nonneg hk0
  unfold reconstructSecret
  simp only [objectEntries_take, decodePoints_take _ _ input.k.toNat hpts, hpts, htl, hplen,
    not_lt.2 hlen, lt_irrefl, if_false, slice_eq_take _ _ hk0, List.take_take, min_self]

theorem reconstructSecret_first_k_witness :
    reconstructSecret ⟨1, [("2", ⟨16, "a"⟩), ("1", ⟨16, "b"⟩)]⟩ =
      reconstructSecret ⟨1,
        (objectEntries [("2", ⟨16, "a"⟩), ("1", ⟨16, "b"⟩)]).take (Int.toNat 1)⟩ :=
  reconstructSecret_first_k ⟨1, [("2", ⟨16, "a"⟩), ("1", ⟨16, "b"⟩)]⟩ (by decide) (by decide)
    (by
      intro p hp
      simp only [List.mem_cons, List.mem_singleton, List.not_mem_nil, or_false] at hp
      rcases hp with rfl | rfl <;> exact ⟨_, rfl⟩)

/-- C10, the claim as stated fails: with `k = 1` and the entries given in the order "2", "1",
`Object.entries` lists the key "1" first, so `reconstructSecret` returns "11", the value of
entry "1", while on the input restricted to its first given entry, "2", it returns "10". -/
theorem reconstructSecret_first_k_counterexample :
    reconstructSecret ⟨1, [("2", ⟨16, "a"⟩), ("1", ⟨16, "b"⟩)]⟩ = Except.ok "11" ∧
      reconstructSecret ⟨1, [("2", ⟨16, "a"⟩), ("1", ⟨16, "b"⟩)].take 1⟩ = Except.ok "10" := by
  exact ⟨by rfl, by rfl⟩

/-! ## The modulus, `extendedGCD`, `reduce` and `modInverse` in general -/

/-- C13: the constant `PRIME` is `2^256 - 189`, it is a prime number, and
`2^255 ≤ PRIME < 2^256`. -/
theorem PRIME_is_256_bit_prime :
    PRIME = 2 ^ 256 - 189 ∧ Nat.Prime PRIME.toNat ∧ Prime PRIME ∧
      2 ^ 255 ≤ PRIME ∧ PRIME < 2 ^ 256 := by
  refine ⟨by unfold PRIME; norm_num, ?_, PRIME_prime, by unfold PRIME; norm_num,
    by unfold PRIME; norm_num⟩
  have h : PRIME.toNat
      = 115792089237316195423570985008687907853269984665640564039457584007913129639747 := by
    rfl
  rw [h]
  exact prime_PRIME_nat

/-- C15: for non-negative `a` and `b`, `extendedGCD(a, b)` returns a triple `(g, x, y)` with
`g = gcd(a, b)` and `a*x + b*y = g`; `extendedGCD(0, b)` is `(b, 0, 1)`. The recursion
terminates: for `a ≠ 0` the call is the source's step applied to `extendedGCD(b % a, a)`, whose
first argument is smaller in absolute value. -/
theorem extendedGCD_bezout (a b : Int) (ha : 0 ≤ a) (hb : 0 ≤ b) :
    (extendedGCD a b).1 = (Int.gcd a b : Int) ∧
      a * (extendedGCD a b).2.1 + b * (extendedGCD a b).2.2 = (extendedGCD a b).1 ∧
      extendedGCD 0 b = (b, 0, 1) ∧
      (a ≠ 0 → (Int.tmod b a).natAbs < a.natAbs ∧
        extendedGCD a b =
          ((extendedGCD (Int.tmod b a) a).1,
            (extendedGCD (Int.tmod b a) a).2.2
              - Int.tdiv b a * (extendedGCD (Int.tmod b a) a).2.1,
            (extendedGCD (Int.tmod b a) a).2.1)) := by
  obtain ⟨h1, h2⟩ := extendedGCD_spec a.natAbs a b le_rfl ha hb
  refine ⟨h1, h2, by rw [extendedGCD_unfold]; simp, ?_⟩
  intro hne
  refine ⟨natAbs_tmod_lt b a hne, ?_⟩
  rw [extendedGCD_unfold a b]
  simp [hne]

theorem extendedGCD_bezout_witness :
    (extendedGCD 240 46).1 = (Int.gcd 240 46 : Int) ∧
      240 * (extendedGCD 240 46).2.1 + 46 * (extendedGCD 240 46).2.2 = (extendedGCD 240 46).1 ∧
      extendedGCD 0 46 = (46, 0, 1) ∧
      ((240 : Int) ≠ 0 → (Int.tmod 46 240).natAbs < (240 : Int).natAbs ∧
        extendedGCD 240 46 =
          ((extendedGCD (Int.tmod 46 240) 240).1,
            (extendedGCD (Int.tmod 46 240) 240).2.2
              - Int.tdiv 46 240 * (extendedGCD (Int.tmod 46 240) 240).2.1,
            (extendedGCD (Int.tmod 46 240) 240).2.1)) :=
  extendedGCD_bezout 240 46 (by decide) (by decide)

theorem modInverse_eq_reduce (a m : Int) (hm : m ≠ 0) :
    modInverse a m =
      if (extendedGCD (reduce a m) m).1 ≠ 1 then Except.error JSError.noInverse
      else Except.ok (reduce (extendedGCD (reduce a m) m).2.1 m) := by
  unfold modInverse reduce
  simp only [hm, if_false]

theorem interpolate_eq_reduce (pts : List Point) (k : Int) :
    interpolate pts k =
      match secretLoop pts k.toNat 0 0 with
      | Except.error e => Except.error e
      | Except.ok secret => Except.ok (reduce secret PRIME) := by
  rfl

/-- C16: for every integer `a`, of either sign, and every modulus `m > 0`, the expression
`((a % m) + m) % m` with the truncating remainder is the unique `r` with `0 ≤ r < m` and
`r ≡ a (mod m)`. It is the normalisation at the entry and exit of `modInverse` and on the final
value of the interpolation in `reconstructSecret`. -/
theorem reduce_canonical (a m : Int) (hm : 0 < m) :
    (0 ≤ reduce a m ∧ reduce a m < m ∧ reduce a m ≡ a [ZMOD m] ∧
        ∀ r, 0 ≤ r → r < m → r ≡ a [ZMOD m] → r = reduce a m) ∧
      (modInverse a m =
        if (extendedGCD (reduce a m) m).1 ≠ 1 then Except.error JSError.noInverse
        else Except.ok (reduce (extendedGCD (reduce a m) m).2.1 m)) ∧
      ∀ (pts : List Point) (k : Int), interpolate pts k =
        match secretLoop pts k.toNat 0 0 with
        | Except.error e => Except.error e
        | Except.ok secret => Except.ok (reduce secret PRIME) := by
  have hr : reduce a m = a % m := tmod_add_tmod a m hm
  refine ⟨⟨?_, ?_, ?_, ?_⟩, modInverse_eq_reduce a m hm.ne', interpolate_eq_reduce⟩
  · rw [hr]; exact Int.emod_nonneg a hm.ne'
  · rw [hr]; exact Int.emod_lt_of_pos a hm
  · rw [hr]; exact Int.mod_modEq a m
  · intro r h0 hlt hc
    rw [hr]
    have : r % m = a % m := hc
    rw [← this, Int.emod_eq_of_lt h0 hlt]

theorem reduce_canonical_witness :
    (0 ≤ reduce (-7) 5 ∧ reduce (-7) 5 < 5 ∧ reduce (-7) 5 ≡ -7 [ZMOD 5] ∧
        ∀ r, 0 ≤ r → r < 5 → r ≡ -7 [ZMOD 5] → r = reduce (-7) 5) ∧
      (modInverse (-7) 5 =
        if (extendedGCD (reduce (-7) 5) 5).1 ≠ 1 then Except.error JSError.noInverse
        else Except.ok (reduce (extendedGCD (reduce (-7) 5) 5).2.1 5)) ∧
      ∀ (pts : List Point) (k : Int), interpolate pts k =
        match secretLoop pts k.toNat 0 0 with
        | Except.error e => Except.error e
        | Except.ok secret => Except.ok (reduce secret PRIME) :=
  reduce_canonical (-7) 5 (by decide)

/-- C19: for every modulus `m > 1` and every integer `a`, of either sign: if `gcd(a, m) = 1`
then `modInverse(a, m)` returns `r` with `0 ≤ r < m` and `a * r ≡ 1 (mod m)`, and if
`gcd(a, m) ≠ 1` it raises 'Modular inverse does not exist'. Primality of `m` is not used. -/
theorem modInverse_any_modulus (a m : Int) (hm : 1 < m) :
    (Int.gcd a m = 1 →
        ∃ r, modInverse a m = Except.ok r ∧ 0 ≤ r ∧ r < m ∧ a * r ≡ 1 [ZMOD m]) ∧
      (Int.gcd a m ≠ 1 → modInverse a m = Except.error JSError.noInverse) := by
  have hpos : 0 < m := by omega
  constructor
  · intro hg
    obtain ⟨r, hr, h0, hlt, hmul⟩ :=
      modInverse_coprime a m hpos (Int.gcd_eq_one_iff_coprime.1 hg)
    exact ⟨r, hr, h0, hlt, hmul⟩
  · intro hg
    exact modInverse_not_coprime a m hpos (fun hc => hg (Int.gcd_eq_one_iff_coprime.2 hc))

theorem modInverse_any_modulus_witness :
    (1 : Int) < 12 ∧ Int.gcd (-7) 12 = 1 ∧
      ∃ r, modInverse (-7) 12 = Except.ok r ∧ 0 ≤ r ∧ r < 12 ∧ -7 * r ≡ 1 [ZMOD 12] :=
  ⟨by decide, by decide, (modInverse_any_modulus (-7) 12 (by decide)).1 (by decide)⟩

/-! ## Degenerate inputs -/

/-- C12: the empty digit string does not decode to the integer `0` for every base:
`fromBase("", 10)` returns `NaN`, the value of `parseInt("", 10)`, as it does for every base
from 2 to 10. For every base above 10 the loop path returns the BigInt `0`. -/
theorem fromBase_empty :
    fromBase "" 10 = Except.ok (JSValue.number JSNumber.nan) ∧
      (∀ b : Nat, 2 ≤ b → b ≤ 10 → fromBase "" b = Except.ok (JSValue.number JSNumber.nan)) ∧
      ∀ b : Nat, 10 < b → fromBase "" b = Except.ok (JSValue.bigint 0) := by
  refine ⟨by rfl, ?_, ?_⟩
  · intro b h2 h10
    interval_cases b <;> rfl
  · intro b hb
    unfold fromBase
    simp only [not_le.2 hb, if_false]
    rfl

theorem secretLoop_zero (pts : List Point) (j : Nat) (secret : Int) :
    secretLoop pts 0 j secret = Except.ok secret := by
  rfl

/-- C20: a non-positive threshold is not rejected: for every input whose share entries all
decode and every `k ≤ 0`, `reconstructSecret` raises no error and returns "0", whatever the
shares are. -/
theorem reconstructSecret_nonpositive_k (input : InputData) (hk : input.k ≤ 0)
    (hdec : ∀ p ∈ input.shares, ∃ y, fromBase p.2.value p.2.base = Except.ok y) :
    reconstructSecret input = Except.ok "0" := by
  have hperm := objectEntries_perm input.shares
  obtain ⟨pts, hpts⟩ := decodePoints_ok (objectEntries input.shares)
    (fun p hp => hdec p (hperm.mem_iff.1 hp))
  have hlen : ¬ ((pts.length : Int) < input.k) := by omega
  have hn : input.k.toNat = 0 := by omega
  unfold reconstructSecret
  rw [hpts]
  simp only [hlen, if_false]
  unfold interpolate
  rw [hn, secretLoop_zero]
  rfl

theorem reconstructSecret_nonpositive_k_witness :
    reconstructSecret ⟨-1, [("1", ⟨16, "a"⟩), ("2", ⟨10, "12"⟩)]⟩ = Except.ok "0" :=
  reconstructSecret_nonpositive_k ⟨-1, [("1", ⟨16, "a"⟩), ("2", ⟨10, "12"⟩)]⟩ (by decide)
    (by
      intro p hp
      simp only [List.mem_cons, List.mem_singleton, List.not_mem_nil, or_false] at hp
      rcases hp with rfl | rfl <;> exact ⟨_, rfl⟩)

/-! ## The invalid-digit error -/

theorem fromBaseLoop_error (base : Nat) : ∀ (cs : List Char) (r : Int) (e : JSError),
    fromBaseLoop base cs r = Except.error e →
      e = JSError.invalidDigit base ∧ ∃ c ∈ cs, ¬ IsValidDigit base c := by
  intro cs
  induction cs with
  | nil => intro r e h; simp [fromBaseLoop] at h
  | cons c cs ih =>
    intro r e h
    rw [fromBaseLoop] at h
    cases hd : digitIndex c with
    | none =>
      simp only [hd, Except.error.injEq] at h
      refine ⟨h.symm, c, List.mem_cons_self _ _, ?_⟩
      rintro ⟨d, hd1, _⟩
      rw [hd] at hd1
      cases hd1
    | some d =>
      simp only [hd] at h
      by_cases hb : base ≤ d
      · simp only [hb, if_true, Except.error.injEq] at h
        refine ⟨h.symm, c, List.mem_cons_self _ _, ?_⟩
        rintro ⟨d1, hd1, hlt⟩
        rw [hd] at hd1
        cases hd1
        omega
      · simp only [hb, if_false] at h
        obtain ⟨h1, c1, hc1, hv⟩ := ih _ e h
        exact ⟨h1, c1, List.mem_cons_of_mem _ hc1, hv⟩

theorem fromBaseLoop_of_invalid (base : Nat) : ∀ (cs : List Char) (r : Int),
    (∃ c ∈ cs, ¬ IsValidDigit base c) →
      fromBaseLoop base cs r = Except.error (JSError.invalidDigit base) := by
  intro cs
  induction cs with
  | nil => intro r h; simp at h
  | cons c cs ih =>
    intro r h
    rw [fromBaseLoop]
    cases hd : digitIndex c with
    | none => rfl
    | some d =>
      by_cases hb : base ≤ d
      · simp [hb]
      · simp only [hb, if_false]
        apply ih
        obtain ⟨c1, hc1, hv⟩ := h
        rcases List.mem_cons.1 hc1 with rfl | hmem
        · exact absurd ⟨d, hd, by omega⟩ hv
        · exact ⟨c1, hmem, hv⟩

theorem fromBase_error (str : String) (base : Nat) (e : JSError)
    (h : fromBase str base = Except.error e) :
    10 < base ∧ e = JSError.invalidDigit base ∧ ∃ c ∈ str.toList, ¬ IsValidDigit base c := by
  unfold fromBase at h
  by_cases hb : base ≤ 10
  · simp [hb] at h
  · rw [if_neg hb] at h
    cases hl : fromBaseLoop base str.toList 0 with
    | ok v => rw [hl] at h; cases h
    | error e1 =>
      rw [hl] at h
      simp only [Except.error.injEq] at h
      subst h
      obtain ⟨h1, h2⟩ := fromBaseLoop_error base _ _ _ hl
      exact ⟨by omega, h1, h2⟩

theorem fromBase_of_invalid (str : String) (base : Nat) (hb : 10 < base)
    (h : ∃ c ∈ str.toList, ¬ IsValidDigit base c) :
    fromBase str base = Except.error (JSError.invalidDigit base) := by
  unfold fromBase
  simp only [not_le.2 hb, if_false, fromBaseLoop_of_invalid base _ 0 h]

theorem decodePoints_first_error : ∀ (l : List (String × Share)),
    (∃ p ∈ l, ∃ e, fromBase p.2.value p.2.base = Except.error e) →
      ∃ q ∈ l, ∃ e, fromBase q.2.value q.2.base = Except.error e ∧
        decodePoints l = Except.error e := by
  intro l
  induction l with
  | nil => intro h; simp at h
  | cons a l ih =>
    intro h
    obtain ⟨x, data⟩ := a
    cases hf : fromBase data.value data.base with
    | error e =>
      exact ⟨(x, data), List.mem_cons_self _ _, e, hf, by simp [decodePoints, hf]⟩
    | ok y =>
      have hrest : ∃ p ∈ l, ∃ e, fromBase p.2.value p.2.base = Except.error e := by
        obtain ⟨p, hp, e, he⟩ := h
        rcases List.mem_cons.1 hp with rfl | hmem
        · rw [hf] at he; cases he
        · exact ⟨p, hmem, e, he⟩
      obtain ⟨q, hq, e, he, hdec⟩ := ih hrest
      exact ⟨q, List.mem_cons_of_mem _ hq, e, he, by simp [decodePoints, hf, hdec]⟩

/-- C14, as amended: whenever some share with a base above 10 has a value containing a
character that is not a valid digit for its base, `reconstructSecret` fails with the error
'Invalid digit for base b', where `b` is the base of such a share; the error carries the base
only, neither the share index nor the character. -/
theorem reconstructSecret_invalid_digit (input : InputData)
    (h : ∃ p ∈ input.shares, 10 < p.2.base ∧ ∃ c ∈ p.2.value.toList, ¬ IsValidDigit p.2.base c) :
    ∃ q ∈ input.shares,
      (10 < q.2.base ∧ ∃ c ∈ q.2.value.toList, ¬ IsValidDigit q.2.base c) ∧
        reconstructSecret input = Except.error (JSError.invalidDigit q.2.base) := by
  have hperm := objectEntries_perm input.shares
  obtain ⟨p, hp, hb, hc⟩ := h
  obtain ⟨q, hq, e, he, hdec⟩ := decodePoints_first_error (objectEntries input.shares)
    ⟨p, hperm.mem_iff.2 hp, _, fromBase_of_invalid _ _ hb hc⟩
  obtain ⟨h1, h2, h3⟩ := fromBase_error _ _ _ he
  refine ⟨q, hperm.mem_iff.1 hq, ⟨h1, h3⟩, ?_⟩
  unfold reconstructSecret
  rw [hdec, h2]

theorem reconstructSecret_invalid_digit_witness :
    ∃ q ∈ [("1", (⟨16, "a"⟩ : Share)), ("2", ⟨16, "z"⟩)],
      (10 < q.2.base ∧ ∃ c ∈ q.2.value.toList, ¬ IsValidDigit q.2.base c) ∧
        reconstructSecret ⟨1, [("1", ⟨16, "a"⟩), ("2", ⟨16, "z"⟩)]⟩
          = Except.error (JSError.invalidDigit q.2.base) :=
  reconstructSecret_invalid_digit ⟨1, [("1", ⟨16, "a"⟩), ("2", ⟨16, "z"⟩)]⟩
    ⟨("2", ⟨16, "z"⟩), by simp, by decide, 'z', by decide, by
      rintro ⟨d, hd, hlt⟩
      have h35 : digitIndex 'z' = some 35 := by rfl
      rw [h35] at hd
      cases hd
      exact absurd hlt (by decide)⟩

/-- C14, the claim as stated fails: an input whose share "1" has the invalid character `g` and
an input whose share "2" has the invalid character `z` raise the same error, 'Invalid digit
for base 16'; the error identifies neither the share nor the character. -/
theorem reconstructSecret_invalid_digit_counterexample :
    reconstructSecret ⟨1, [("1", ⟨16, "g"⟩), ("2", ⟨16, "b"⟩)]⟩
        = Except.error (JSError.invalidDigit 16) ∧
      reconstructSecret ⟨1, [("1", ⟨16, "a"⟩), ("2", ⟨16, "z"⟩)]⟩
        = Except.error (JSError.invalidDigit 16) := by
  exact ⟨by rfl, by rfl⟩

/-! ## The basis polynomial on distinct x-coordinates -/

theorem distinctX_example :
    DistinctX [⟨JSNumber.int false 1, JSValue.bigint 4⟩, ⟨JSNumber.int false 2, JSValue.bigint 7⟩,
      ⟨JSNumber.int false 3, JSValue.bigint 12⟩] := by
  constructor
  · intro p hp
    simp only [List.mem_cons, List.mem_singleton, List.not_mem_nil, or_false] at hp
    rcases hp with rfl | rfl | rfl <;> exact ⟨_, rfl⟩
  · simp only [List.pairwise_cons, List.mem_cons, List.mem_singleton, List.not_mem_nil,
      or_false, forall_eq_or_imp, forall_eq, List.Pairwise.nil, and_true, IsEmpty.forall_iff,
      implies_true, toBigInt, Except.ok.injEq]
    refine ⟨⟨?_, ?_⟩, ?_⟩ <;>
    · intro xp xq h1 h2
      subst h1
      subst h2
      unfold Int.ModEq PRIME
      decide

theorem distinctX_getElem (pts : List Point) (h : DistinctX pts) (i j : Nat) (hij : i ≠ j)
    (pi pj : Point) (hi : pts[i]? = some pi) (hj : pts[j]? = some pj) (xi xj : Int)
    (hxi : toBigInt pi.x = Except.ok xi) (hxj : toBigInt pj.x = Except.ok xj) :
    ¬ xi ≡ xj [ZMOD PRIME] := by
  obtain ⟨hi1, hi2⟩ := List.getElem?_eq_some.1 hi
  obtain ⟨hj1, hj2⟩ := List.getElem?_eq_some.1 hj
  have hp := List.pairwise_iff_getElem.1 h.2
  rcases Nat.lt_or_gt_of_ne hij with hlt | hgt
  · have := hp i j hi1 hj1 hlt xi xj (by rw [hi2]; exact hxi) (by rw [hj2]; exact hxj)
    exact this
  · have := hp j i hj1 hi1 hgt xj xi (by rw [hj2]; exact hxj) (by rw [hi2]; exact hxi)
    exact fun hc => this hc.symm

theorem basisFactor_of_incongruent (x : Int) (xjN : JSNumber) (q : Point) (xi xj : Int)
    (hq : toBigInt q.x = Except.ok xi) (hj : toBigInt xjN = Except.ok xj)
    (hne : ¬ xi ≡ xj [ZMOD PRIME]) :
    ∃ inv, basisFactor x xjN q = Except.ok ((x - xi) * inv) ∧
      (xj - xi) * inv ≡ 1 [ZMOD PRIME] := by
  have hco : IsCoprime (xj - xi) PRIME := by
    rw [isCoprime_PRIME_iff]
    intro hd
    exact hne (Int.modEq_iff_dvd.2 hd)
  obtain ⟨inv, hinv, _, _, hmul⟩ := modInverse_coprime (xj - xi) PRIME PRIME_pos hco
  refine ⟨inv, ?_, hmul⟩
  unfold basisFactor
  rw [hq, hj]
  simp [hinv]

theorem others_incongruent (pts : List Point) (h : DistinctX pts) (j : Nat) (pj : Point)
    (hj : pts[j]? = some pj) (xj : Int) (hxj : toBigInt pj.x = Except.ok xj) :
    ∀ q ∈ pts.erase pj, ∃ xq, toBigInt q.x = Except.ok xq ∧ ¬ xq ≡ xj [ZMOD PRIME] := by
  intro q hq
  have hq1 := (eraseIdx_perm_erase pts j pj hj).mem_iff.2 hq
  obtain ⟨i, hij, hi⟩ := List.mem_eraseIdx_iff_getElem?.1 hq1
  obtain ⟨xq, hxq⟩ := h.1 q (List.getElem?_mem hi)
  exact ⟨xq, hxq, distinctX_getElem pts h i j hij q pj hi hj xq xj hxq hxj⟩

theorem lagrangeBasis_ok_of_distinct (pts : List Point) (h : DistinctX pts) (j : Nat)
    (pj : Point) (hj : pts[j]? = some pj) (x : Int) :
    ∃ b, lagrangeBasis pts j x = Except.ok b := by
  obtain ⟨xj, hxj⟩ := h.1 pj (List.getElem?_mem hj)
  rw [lagrangeBasis_ok_iff pts j x pj hj]
  intro q hq
  obtain ⟨xq, hxq, hne⟩ := others_incongruent pts h j pj hj xj hxj q hq
  obtain ⟨inv, hf, _⟩ := basisFactor_of_incongruent x pj.x q xq xj hxq hxj hne
  exact ⟨_, hf⟩

theorem prodLoop_bound (x : Int) (xjN : JSNumber) : ∀ (l : List Point) (r b : Int),
    prodLoop x xjN l r = Except.ok b → -PRIME < r → r < PRIME → -PRIME < b ∧ b < PRIME := by
  intro l
  induction l with
  | nil =>
    intro r b h h1 h2
    simp only [prodLoop, Except.ok.injEq] at h
    subst h
    exact ⟨h1, h2⟩
  | cons p l ih =>
    intro r b h _ _
    rw [prodLoop] at h
    cases hf : basisFactor x xjN p with
    | error e => rw [hf] at h; cases h
    | ok f =>
      rw [hf] at h
      have hlt := natAbs_tmod_lt (r * f) PRIME PRIME_pos.ne'
      have hP := PRIME_pos
      exact ih _ _ h (by omega) (by omega)

/-- C17, as amended: for points with integer x-coordinates that are pairwise distinct modulo
`PRIME` and every index `j` into the list, `lagrangeBasis(points, j, 0)` returns a value that
lies strictly between `-PRIME` and `PRIME`. -/
theorem lagrangeBasis_bounded (pts : List Point) (h : DistinctX pts) (j : Nat)
    (hj : j < pts.length) :
    ∃ b, lagrangeBasis pts j 0 = Except.ok b ∧ -PRIME < b ∧ b < PRIME := by
  have hget : pts[j]? = some pts[j] := List.getElem?_eq_getElem hj
  obtain ⟨b, hb⟩ := lagrangeBasis_ok_of_distinct pts h j pts[j] hget 0
  refine ⟨b, hb, ?_⟩
  rw [lagrangeBasis_eq_prodLoop pts j 0 pts[j] hget] at hb
  have hP := PRIME_pos
  exact prodLoop_bound 0 _ _ 1 b hb (by omega) (by unfold PRIME; norm_num)

theorem lagrangeBasis_bounded_witness :
    ∃ b, lagrangeBasis [⟨JSNumber.int false 1, JSValue.bigint 4⟩,
        ⟨JSNumber.int false 2, JSValue.bigint 7⟩, ⟨JSNumber.int false 3, JSValue.bigint 12⟩] 1 0
        = Except.ok b ∧ -PRIME < b ∧ b < PRIME :=
  lagrangeBasis_bounded _ distinctX_example 1 (by decide)

/-- C17, the claim as stated fails: for the points with x-coordinates `1` and `2`, which are
distinct modulo `PRIME`, `lagrangeBasis(points, 0, 0)` returns `2 - PRIME`, a negative value:
`result %= PRIME` is the truncating remainder and the factor `0 - 2` is negative. -/
theorem lagrangeBasis_bounded_counterexample :
    DistinctX [⟨JSNumber.int false 1, JSValue.bigint 4⟩,
        ⟨JSNumber.int false 2, JSValue.bigint 7⟩] ∧
      lagrangeBasis [⟨JSNumber.int false 1, JSValue.bigint 4⟩,
        ⟨JSNumber.int false 2, JSValue.bigint 7⟩] 0 0 = Except.ok (2 - PRIME) ∧
      2 - PRIME < 0 := by
  refine ⟨⟨?_, ?_⟩, by rfl, by decide⟩
  · intro p hp
    simp only [List.mem_cons, List.mem_singleton, List.not_mem_nil, or_false] at hp
    rcases hp with rfl | rfl <;> exact ⟨_, rfl⟩
  · simp only [List.pairwise_cons, List.mem_singleton, forall_eq, List.not_mem_nil,
      List.Pairwise.nil, and_true, IsEmpty.forall_iff, implies_true, toBigInt, Except.ok.injEq]
    intro xp xq h1 h2
    subst h1
    subst h2
    unfold Int.ModEq PRIME
    decide

theorem list_prod_modEq_one (n : Int) : ∀ (L : List Int), (∀ v ∈ L, v ≡ 1 [ZMOD n]) →
    L.prod ≡ 1 [ZMOD n] := by
  intro L
  induction L with
  | nil => intro _; simp
  | cons a L ih =>
    intro h
    rw [List.prod_cons]
    have h1 := h a (List.mem_cons_self _ _)
    have h2 := ih (fun v hv => h v (List.mem_cons_of_mem _ hv))
    simpa using Int.ModEq.mul h1 h2

/-- C18: for points with integer x-coordinates that are pairwise distinct modulo `PRIME` and
indices `j`, `m` into the list, `lagrangeBasis(points, j, x_m)` returns a value congruent
modulo `PRIME` to `1` when `m = j` and to `0` when `m ≠ j`. -/
theorem lagrangeBasis_kronecker (pts : List Point) (h : DistinctX pts) (j m : Nat)
    (pj pm : Point) (hj : pts[j]? = some pj) (hm : pts[m]? = some pm) (xm : Int)
    (hxm : toBigInt pm.x = Except.ok xm) :
    ∃ b, lagrangeBasis pts j xm = Except.ok b ∧
      b ≡ (if m = j then 1 else 0) [ZMOD PRIME] := by
  obtain ⟨b, hb⟩ := lagrangeBasis_ok_of_distinct pts h j pj hj xm
  refine ⟨b, hb, ?_⟩
  have hval := lagrangeBasis_modEq pts j xm pj hj b hb
  obtain ⟨xj, hxj⟩ := h.1 pj (List.getElem?_mem hj)
  by_cases hmj : m = j
  · subst hmj
    rw [hj] at hm
    cases hm
    simp only [if_true]
    have hxeq : xm = xj := by
      rw [hxj] at hxm
      exact (Except.ok.inj hxm).symm
    rw [hxeq] at hval
    refine hval.trans (list_prod_modEq_one PRIME _ ?_)
    intro v hv
    obtain ⟨q, hq, rfl⟩ := List.mem_map.1 hv
    obtain ⟨xq, hxq, hne⟩ := others_incongruent pts h m pj hj xj hxj q hq
    obtain ⟨inv, hf, hmul⟩ := basisFactor_of_incongruent xj pj.x q xq xj hxq hxj hne
    simp only [factorVal, hf]
    exact hmul
  · simp only [hmj, if_false]
    have hmem : pm ∈ pts.erase pj := by
      apply (eraseIdx_perm_erase pts j pj hj).mem_iff.1
      rw [List.mem_eraseIdx_iff_getElem?]
      exact ⟨m, hmj, hm⟩
    have hne := distinctX_getElem pts h m j hmj pm pj hm hj xm xj hxm hxj
    obtain ⟨inv, hf, _⟩ := basisFactor_of_incongruent xm pj.x pm xm xj hxm hxj hne
    have hzero : factorVal xm pj.x pm = 0 := by
      simp [factorVal, hf]
    have hprod : ((pts.erase pj).map (factorVal xm pj.x)).prod = 0 :=
      List.prod_eq_zero (List.mem_map.2 ⟨pm, hmem, hzero⟩)
    rw [hprod] at hval
    exact hval

theorem lagrangeBasis_kronecker_witness :
    ∃ b, lagrangeBasis [⟨JSNumber.int false 1, JSValue.bigint 4⟩,
        ⟨JSNumber.int false 2, JSValue.bigint 7⟩, ⟨JSNumber.int false 3, JSValue.bigint 12⟩] 1 3
        = Except.ok b ∧ b ≡ (if 2 = 1 then 1 else 0) [ZMOD PRIME] :=
  lagrangeBasis_kronecker _ distinctX_example 1 2 ⟨JSNumber.int false 2, JSValue.bigint 7⟩
    ⟨JSNumber.int false 3, JSValue.bigint 12⟩ (by rfl) (by rfl) 3 (by rfl)

/-! ## Case-insensitive digits -/

theorem alnum_facts_ofNat : ∀ n : Nat, n < 123 → (Char.ofNat n).isAlphanum = true →
    (isWhiteSpace (Char.ofNat n).toUpper = false ∧ isWhiteSpace (Char.ofNat n).toLower = false) ∧
    ((Char.ofNat n).toUpper ≠ '-' ∧ (Char.ofNat n).toUpper ≠ '+' ∧
      (Char.ofNat n).toLower ≠ '-' ∧ (Char.ofNat n).toLower ≠ '+') ∧
    ((Char.ofNat n).toUpper = (Char.ofNat n).toLower ∨
      (isRadixDigit 10 (Char.ofNat n).toUpper = false ∧
        isRadixDigit 10 (Char.ofNat n).toLower = false)) ∧
    digitIndex (Char.ofNat n).toUpper = digitIndex (Char.ofNat n).toLower := by
  decide

theorem alnum_facts (c : Char) (hc : c.isAlphanum = true) :
    (isWhiteSpace c.toUpper = false ∧ isWhiteSpace c.toLower = false) ∧
    (c.toUpper ≠ '-' ∧ c.toUpper ≠ '+' ∧ c.toLower ≠ '-' ∧ c.toLower ≠ '+') ∧
    (c.toUpper = c.toLower ∨
      (isRadixDigit 10 c.toUpper = false ∧ isRadixDigit 10 c.toLower = false)) ∧
    digitIndex c.toUpper = digitIndex c.toLower := by
  have hlt : c.toNat < 123 := by
    simp only [Char.isAlphanum, Char.isAlpha, Char.isUpper, Char.isLower, Char.isDigit,
      Bool.or_eq_true, Bool.and_eq_true, decide_eq_true_eq] at hc
    have h1 : c.toNat = c.val.toNat := rfl
    rcases hc with (⟨_, h⟩ | ⟨_, h⟩) | ⟨_, h⟩
    · have h2 : c.val.toNat ≤ 90 := h
      omega
    · have h2 : c.val.toNat ≤ 122 := h
      omega
    · have h2 : c.val.toNat ≤ 57 := h
      omega
  have hof : Char.ofNat c.toNat = c := Char.ofNat_toNat c
  have := alnum_facts_ofNat c.toNat hlt (by rw [hof]; exact hc)
  rw [hof] at this
  exact this

theorem isRadixDigit_mono (b : Nat) (hb : b ≤ 10) (c : Char)
    (h : isRadixDigit 10 c = false) : isRadixDigit b c = false := by
  unfold isRadixDigit at h ⊢
  cases hd : radixDigit c with
  | none => rfl
  | some d =>
    simp only [hd, decide_eq_false_iff_not] at h ⊢
    omega

theorem takeWhile_case (b : Nat) (hb : b ≤ 10) : ∀ (cs : List Char),
    (∀ c ∈ cs, c.isAlphanum = true) →
      (cs.map Char.toUpper).takeWhile (isRadixDigit b)
        = (cs.map Char.toLower).takeWhile (isRadixDigit b) := by
  intro cs
  induction cs with
  | nil => intro _; rfl
  | cons c cs ih =>
    intro h
    have hf := (alnum_facts c (h c (List.mem_cons_self _ _))).2.2.1
    have hrest := ih (fun d hd => h d (List.mem_cons_of_mem _ hd))
    simp only [List.map_cons, List.takeWhile_cons]
    rcases hf with heq | ⟨hu, hl⟩
    · rw [heq, hrest]
    · rw [isRadixDigit_mono b hb _ hu, isRadixDigit_mono b hb _ hl]
      simp

theorem parseInt_plain (l : List Char) (b : Nat) (hb2 : 2 ≤ b) (hb10 : b ≤ 10)
    (hl : ∀ c ∈ l, isWhiteSpace c = false ∧ c ≠ '-' ∧ c ≠ '+') :
    parseInt (String.mk l) b =
      if (l.takeWhile (isRadixDigit b)).isEmpty then JSNumber.nan
      else
        match roundToDouble (mathInt b (l.takeWhile (isRadixDigit b))) with
        | some v => JSNumber.int false v
        | none => JSNumber.inf false := by
  have hdrop : l.dropWhile isWhiteSpace = l := by
    cases l with
    | nil => rfl
    | cons a t => simp [List.dropWhile, (hl a (List.mem_cons_self _ _)).1]
  have hminus : l.head? ≠ some '-' := by
    cases l with
    | nil => simp
    | cons a t => simpa using (hl a (List.mem_cons_self _ _)).2.1
  have hplus : l.head? ≠ some '+' := by
    cases l with
    | nil => simp
    | cons a t => simpa using (hl a (List.mem_cons_self _ _)).2.2
  have hr0 : b ≠ 0 := by omega
  have hr16 : b ≠ 16 := by omega
  have hrange : ¬ (b ≠ 0 ∧ (b < 2 ∨ 36 < b)) := by omega
  unfold parseInt
  simp only [String.toList, hdrop, hminus, hplus, or_self, if_false, hrange, hr0, hr16,
    decide_False, Bool.false_and, Bool.false_eq_true]

theorem fromBaseLoop_case (b : Nat) : ∀ (cs : List Char) (r : Int),
    (∀ c ∈ cs, c.isAlphanum = true) →
      fromBaseLoop b (cs.map Char.toUpper) r = fromBaseLoop b (cs.map Char.toLower) r := by
  intro cs
  induction cs with
  | nil => intro r _; rfl
  | cons c cs ih =>
    intro r h
    have hf := (alnum_facts c (h c (List.mem_cons_self _ _))).2.2.2
    simp only [List.map_cons, fromBaseLoop, hf]
    cases hd : digitIndex c.toLower with
    | none => rfl
    | some d =>
      by_cases hbd : b ≤ d
      · simp [hbd]
      · simp only [hbd, if_false]
        exact ih _ (fun e he => h e (List.mem_cons_of_mem _ he))

theorem letter_values : ∀ i : Nat, i < 26 →
    digitIndex (Char.ofNat (97 + i)) = some (10 + i) ∧
      digitIndex (Char.ofNat (65 + i)) = some (10 + i) := by
  decide

/-- C11: for every base from 2 to 36 and every string of the characters `0`-`9`, `a`-`z`,
`A`-`Z`, `fromBase` gives the same outcome on the upper-cased and on the lower-cased string (the
same value, or the same error); on the loop path the letters `a`-`z` and `A`-`Z` stand for the
values 10 to 35. -/
theorem fromBase_case_insensitive (b : Nat) (str : String) (hb2 : 2 ≤ b) (_hb36 : b ≤ 36)
    (h : IsAlphanumeric str) :
    fromBase (toUpperCaseAscii str) b = fromBase (toLowerCaseAscii str) b ∧
      ∀ i : Nat, i < 26 →
        digitIndex (Char.ofNat (97 + i)) = some (10 + i) ∧
          digitIndex (Char.ofNat (65 + i)) = some (10 + i) := by
  refine ⟨?_, letter_values⟩
  unfold fromBase
  by_cases hb : b ≤ 10
  · simp only [hb, if_true]
    have hU : ∀ c ∈ str.toList.map Char.toUpper,
        isWhiteSpace c = false ∧ c ≠ '-' ∧ c ≠ '+' := by
      intro c hc
      obtain ⟨d, hd, rfl⟩ := List.mem_map.1 hc
      have hf := alnum_facts d (h d hd)
      exact ⟨hf.1.1, hf.2.1.1, hf.2.1.2.1⟩
    have hL : ∀ c ∈ str.toList.map Char.toLower,
        isWhiteSpace c = false ∧ c ≠ '-' ∧ c ≠ '+' := by
      intro c hc
      obtain ⟨d, hd, rfl⟩ := List.mem_map.1 hc
      have hf := alnum_facts d (h d hd)
      exact ⟨hf.1.2, hf.2.1.2.2.1, hf.2.1.2.2.2⟩
    unfold toUpperCaseAscii toLowerCaseAscii
    rw [parseInt_plain _ b hb2 hb hU, parseInt_plain _ b hb2 hb hL,
      takeWhile_case b hb str.toList h]
  · simp only [hb, if_false]
    unfold toUpperCaseAscii toLowerCaseAscii
    show (match fromBaseLoop b (str.toList.map Char.toUpper) 0 with
        | Except.error e => Except.error e
        | Except.ok result => Except.ok (JSValue.bigint result)) =
      (match fromBaseLoop b (str.toList.map Char.toLower) 0 with
        | Except.error e => Except.error e
        | Except.ok result => Except.ok (JSValue.bigint result))
    rw [fromBaseLoop_case b str.toList 0 h]

theorem fromBase_case_insensitive_witness :
    fromBase (toUpperCaseAscii "aF3") 16 = fromBase (toLowerCaseAscii "aF3") 16 ∧
      ∀ i : Nat, i < 26 →
        digitIndex (Char.ofNat (97 + i)) = some (10 + i) ∧
          digitIndex (Char.ofNat (65 + i)) = some (10 + i) :=
  fromBase_case_insensitive 16 "aF3" (by decide) (by decide)
    (by
      intro c hc
      have hc2 : c ∈ ['a', 'F', '3'] := hc
      simp only [List.mem_cons, List.mem_singleton, List.not_mem_nil, or_false] at hc2
      rcases hc2 with rfl | rfl | rfl <;> rfl)

end Shamir
